import Mathlib

set_option autoImplicit false

/-!
Shallow embedding of the prometheus message buffer's core:
the bolt-backed message store (`newBoltStore`, `append`, `get`, `gc`)
and the streaming watch session (`activeWatch.handleNewMessages`),
together with proofs of the specification's claims about them.

Machine integers (`uint64`) are modelled as `Nat` with explicit
reduction modulo `2 ^ 64` where the code can overflow.  BoltDB is
modelled by its documented semantics: buckets keep their keys in
byte-lexicographic order, `NextSequence` is a durable per-bucket
counter, and `db.Update` commits the transaction body on success and
rolls it back (leaving the store unchanged) when the body returns an
error.
-/

namespace MessageBuffer

/-- The `uint64` modulus. -/
def U64 : Nat := 2 ^ 64

/-- An arbitrary JSON-marshallable payload (`data interface{}` in Go).
`unserializable` stands for a Go value `json.Marshal` rejects
(a channel or function value). -/
inductive Data where
  | json (s : String)
  | unserializable (n : Nat)
deriving DecidableEq, Repr

/-- A stored message: sequential index, append timestamp, payload. -/
structure Message where
  index : Nat
  timestamp : Int
  data : Data
deriving DecidableEq, Repr

instance : Inhabited Message := ⟨⟨0, 0, .json ""⟩⟩

/-- The response unit returned by `get` and pushed by a watch session. -/
structure MessagesResponse where
  generationID : String
  messages : List Message
deriving DecidableEq, Repr

/-- A byte string stored as a bolt value: either the JSON encoding of a
message or bytes that do not decode to a message. -/
inductive Bytes where
  | enc (m : Message)
  | junk (n : Nat)
deriving DecidableEq, Repr

/-- Marshalling (`json.Marshal`) of a `Message`: fails exactly when the payload is not
serializable. -/
def jsonMarshal (m : Message) : Option Bytes :=
  match m.data with
  | .unserializable _ => none
  | .json _ => some (.enc m)

/-- Unmarshalling (`json.Unmarshal`) of a stored value into a `Message`. -/
def jsonUnmarshal (b : Bytes) : Option Message :=
  match b with
  | .enc m => some m
  | .junk _ => none

/-- Fixed-width big-endian byte decomposition: `beBytes n i` is the list
of the `n` base-256 digits of `i`, most significant first. -/
def beBytes : Nat → Nat → List Nat
  | 0, _ => []
  | n + 1, i => i / 256 ^ n :: beBytes n (i % 256 ^ n)

/-- The function `keyFromIndex`: the 8-byte big-endian encoding of a `uint64` index
(`binary.BigEndian.PutUint64`). -/
def keyFromIndex (index : Nat) : List Nat :=
  beBytes 8 (index % U64)

/-- Byte-string comparison (`bytes.Compare < 0`), the order bolt keeps
its keys in: lexicographic, a strict prefix sorting first. -/
def keyLt : List Nat → List Nat → Bool
  | [], [] => false
  | [], _ :: _ => true
  | _ :: _, [] => false
  | a :: as, b :: bs =>
    if a < b then true
    else if a = b then keyLt as bs
    else false

theorem keyLt_irrefl (k : List Nat) : keyLt k k = false := by
  induction k with
  | nil => rfl
  | cons a as ih => simp [keyLt, ih]

/-- Big-endian encoding is order-preserving: comparing the `n`-digit
encodings of two numbers below `256 ^ n` is comparing the numbers. -/
theorem keyLt_beBytes (n : Nat) (i j : Nat) (hi : i < 256 ^ n) (hj : j < 256 ^ n) :
    keyLt (beBytes n i) (beBytes n j) = decide (i < j) := by
  induction n generalizing i j with
  | zero =>
    simp only [pow_zero, Nat.lt_one_iff] at hi hj
    subst hi; subst hj
    rfl
  | succ n ih =>
    have hq : (0:Nat) < 256 ^ n := Nat.pos_pow_of_pos n (by norm_num)
    have hidiv : 256 ^ n * (i / 256 ^ n) + i % 256 ^ n = i := Nat.div_add_mod i (256 ^ n)
    have hjdiv : 256 ^ n * (j / 256 ^ n) + j % 256 ^ n = j := Nat.div_add_mod j (256 ^ n)
    have himod : i % 256 ^ n < 256 ^ n := Nat.mod_lt _ hq
    have hjmod : j % 256 ^ n < 256 ^ n := Nat.mod_lt _ hq
    simp only [beBytes, keyLt]
    by_cases hlt : i / 256 ^ n < j / 256 ^ n
    · simp only [hlt, if_true]
      have : i < j := by
        calc i = 256 ^ n * (i / 256 ^ n) + i % 256 ^ n := by omega
        _ < 256 ^ n * (i / 256 ^ n) + 256 ^ n := by omega
        _ = 256 ^ n * (i / 256 ^ n + 1) := by ring
        _ ≤ 256 ^ n * (j / 256 ^ n) := Nat.mul_le_mul_left _ (by omega)
        _ ≤ j := by omega
      simp [this]
    · simp only [hlt, if_false]
      by_cases heq : i / 256 ^ n = j / 256 ^ n
      · simp only [heq, if_true]
        rw [ih _ _ himod hjmod]
        rw [← heq] at hjdiv
        have : i % 256 ^ n < j % 256 ^ n ↔ i < j := by omega
        simp [this]
      · simp only [heq, if_false]
        have : ¬ i < j := by
          have hgt : j / 256 ^ n < i / 256 ^ n := by omega
          have : j < i := by
            calc j = 256 ^ n * (j / 256 ^ n) + j % 256 ^ n := by omega
            _ < 256 ^ n * (j / 256 ^ n) + 256 ^ n := by omega
            _ = 256 ^ n * (j / 256 ^ n + 1) := by ring
            _ ≤ 256 ^ n * (i / 256 ^ n) := Nat.mul_le_mul_left _ (by omega)
            _ ≤ i := by omega
          omega
        simp [this]

theorem U64_eq : U64 = 256 ^ 8 := by norm_num [U64]

/-- Order preservation specialised to `keyFromIndex` on in-range indices. -/
theorem keyLt_keyFromIndex (i j : Nat) (hi : i < U64) (hj : j < U64) :
    keyLt (keyFromIndex i) (keyFromIndex j) = decide (i < j) := by
  have hi' : i % U64 = i := Nat.mod_eq_of_lt hi
  have hj' : j % U64 = j := Nat.mod_eq_of_lt hj
  rw [keyFromIndex, keyFromIndex, hi', hj',
    keyLt_beBytes 8 i j (U64_eq ▸ hi) (U64_eq ▸ hj)]

/-- A per-topic bolt sub-bucket: the durable `NextSequence` counter and
the key/value pairs, kept in ascending key order (bolt's invariant). -/
structure TopicBucket where
  seq : Nat
  entries : List (List Nat × Bytes)
deriving DecidableEq, Repr

/-- The in-process store handle: the generation identifier read at open
time and the contents of the `messages` root bucket (one sub-bucket per
topic). -/
structure Store where
  generationID : String
  messages : List (String × TopicBucket)
deriving DecidableEq, Repr

/-- Durable content of a storage location: the `metadata` bucket's
`generationID` entry (absent on a fresh location) and the `messages`
bucket. -/
structure DB where
  metaGenerationID : Option String
  messages : List (String × TopicBucket)
deriving DecidableEq, Repr

/-- A freshly created storage location. -/
def emptyDB : DB := ⟨none, []⟩

/-- Lookup `root.Bucket([]byte(topic))`: find a topic's sub-bucket. -/
def bucketGet? : List (String × TopicBucket) → String → Option TopicBucket
  | [], _ => none
  | (t, b) :: rest, topic => if t = topic then some b else bucketGet? rest topic

/-- Store a (possibly new) sub-bucket under a topic name. -/
def bucketSet : List (String × TopicBucket) → String → TopicBucket → List (String × TopicBucket)
  | [], topic, b => [(topic, b)]
  | (t, b0) :: rest, topic, b =>
    if t = topic then (topic, b) :: rest else (t, b0) :: bucketSet rest topic b

/-- Write `b.Put(k, v)`: insert a key/value pair keeping keys sorted,
replacing the value if the key is already present. -/
def putEntry (k : List Nat) (v : Bytes) : List (List Nat × Bytes) → List (List Nat × Bytes)
  | [] => [(k, v)]
  | (k0, v0) :: rest =>
    if keyLt k k0 then (k, v) :: (k0, v0) :: rest
    else if k = k0 then (k, v) :: rest
    else (k0, v0) :: putEntry k v rest

/-- Seek `c.Seek(k)` followed by `c.Next()` iteration: the suffix of the
sorted entry list starting at the first key `≥ k`. -/
def seekEntries (k : List Nat) (es : List (List Nat × Bytes)) : List (List Nat × Bytes) :=
  es.dropWhile (fun e => keyLt e.1 k)

/-- Transaction `bs.db.Update(body)`: commit the transaction on success, roll it
back (the store is unchanged) when the body returns an error. -/
def dbUpdate (bs : Store) (body : Store → Except String Store) : Store × Option String :=
  match body bs with
  | .ok bs' => (bs', none)
  | .error e => (bs, some e)

/-- The transaction body of `boltStore.append`: create the topic bucket
if absent, take the next sequence number, build the message with the
current time, marshal it, and write it under its big-endian key. -/
def appendTx (bs : Store) (topic : String) (data : Data) (now : Int) : Except String Store :=
  let b := (bucketGet? bs.messages topic).getD ⟨0, []⟩
  let idx := (b.seq + 1) % U64
  let n : Message := ⟨idx, now, data⟩
  match jsonMarshal n with
  | none => .error "error marshalling message"
  | some buf =>
    .ok { bs with
          messages := bucketSet bs.messages topic ⟨idx, putEntry (keyFromIndex idx) buf b.entries⟩ }

/-- Operation `boltStore.append`: the transaction body run under `db.Update`.
Returns the store as visible after the call and the error, if any. -/
def append (bs : Store) (topic : String) (data : Data) (now : Int) : Store × Option String :=
  dbUpdate bs (fun s => appendTx s topic data now)

/-- The read loop of `boltStore.get`: unmarshal every remaining entry,
failing on the first undecodable value. -/
def readMessages : List (List Nat × Bytes) → Except String (List Message)
  | [] => .ok []
  | (_, v) :: rest =>
    match jsonUnmarshal v with
    | none => .error "unable to unmarshal message"
    | some n => (readMessages rest).map (fun ns => n :: ns)

/-- Operation `boltStore.get`: an absent topic yields an empty response; otherwise
seek to `fromIndex` when the caller's generation matches the store's,
else scan from the first record; return messages in key order. -/
def get (bs : Store) (topic : String) (generationID : String) (fromIndex : Nat) :
    Except String MessagesResponse :=
  match bucketGet? bs.messages topic with
  | none => .ok ⟨bs.generationID, []⟩
  | some b =>
    let es := if generationID = bs.generationID
      then seekEntries (keyFromIndex fromIndex) b.entries
      else b.entries
    (readMessages es).map (fun ns => ⟨bs.generationID, ns⟩)

/-- The per-topic loop of `boltStore.gc`: scan all entries, delete every
message whose timestamp is strictly before the cutoff, counting the
deletions; an undecodable value aborts with the count so far. -/
def gcEntries (olderThan : Int) (acc : Nat) :
    List (List Nat × Bytes) → List (List Nat × Bytes) × Nat × Option String
  | [] => ([], acc, none)
  | (k, v) :: rest =>
    match jsonUnmarshal v with
    | none => ([], acc, some "unable to unmarshal message")
    | some n =>
      if n.timestamp < olderThan then gcEntries olderThan (acc + 1) rest
      else
        match gcEntries olderThan acc rest with
        | (es, c, e) => ((k, v) :: es, c, e)

/-- The topic loop of `boltStore.gc` over the root bucket. -/
def gcTopics (olderThan : Int) (acc : Nat) :
    List (String × TopicBucket) → List (String × TopicBucket) × Nat × Option String
  | [] => ([], acc, none)
  | (t, b) :: rest =>
    match gcEntries olderThan acc b.entries with
    | (_, c, some e) => ([], c, some e)
    | (es, c, none) =>
      match gcTopics olderThan c rest with
      | (ms, c', e') => ((t, ⟨b.seq, es⟩) :: ms, c', e')

/-- Operation `boltStore.gc`: one transaction over all topics; on an error the
transaction rolls back (the store is unchanged) while the returned
count still reflects the deletions attempted before the failure. -/
def gc (bs : Store) (olderThan : Int) : Store × Nat × Option String :=
  match gcTopics olderThan 0 bs.messages with
  | (ms, c, none) => ({ bs with messages := ms }, c, none)
  | (_, c, some e) => (bs, c, some e)

/-- Opening `newBoltStore`: open a storage location, create the two buckets if
absent, read the persisted generation identifier or — on a fresh
location — generate one (`freshUUID` stands for `uuid.NewV4()`) and
persist it.  Returns the store handle and the durable content after
the open. -/
def newBoltStore (db : DB) (freshUUID : String) : Store × DB :=
  match db.metaGenerationID with
  | some g => (⟨g, db.messages⟩, db)
  | none => (⟨freshUUID, db.messages⟩, ⟨some freshUUID, db.messages⟩)

/-- Closing `boltStore.close`: the durable content left behind by a store
handle (every committed transaction is durable). -/
def closeStore (bs : Store) : DB :=
  ⟨some bs.generationID, bs.messages⟩

/-- The mutable state of one streaming watch (`activeWatch`): watched
topic, the generation the cursor is valid against, and the next index
to ask for. -/
structure ActiveWatch where
  topic : String
  genID : String
  idx : Nat
deriving DecidableEq, Repr

/-- Step `activeWatch.handleNewMessages`: poll the store; on a non-empty
result write the whole response to the sink as one chunk, adopt the
returned generation identifier and advance the cursor to one past the
last delivered index; an empty result changes nothing. -/
def handleNewMessages (bs : Store) (aw : ActiveWatch) (sink : List MessagesResponse) :
    Except String (ActiveWatch × List MessagesResponse) :=
  match get bs aw.topic aw.genID aw.idx with
  | .error e => .error e
  | .ok resp =>
    match resp.messages.getLast? with
    | none => .ok (aw, sink)
    | some last =>
      .ok (⟨aw.topic, resp.generationID, last.index + 1⟩, sink ++ [resp])

/-- One poll iteration of the websocket variant of the watch session
(the loop body of `watchManager.manageWatch`): on a non-empty result
it writes the response and advances only `idx` — the `genID` the
session was started with is never updated. -/
def wsHandleNewMessages (bs : Store) (aw : ActiveWatch) (sink : List MessagesResponse) :
    Except String (ActiveWatch × List MessagesResponse) :=
  match get bs aw.topic aw.genID aw.idx with
  | .error e => .error e
  | .ok resp =>
    match resp.messages.getLast? with
    | none => .ok (aw, sink)
    | some last =>
      .ok (⟨aw.topic, aw.genID, last.index + 1⟩, sink ++ [resp])

/-- The topic's bucket, an empty one when the topic does not exist. -/
def topicBucket (bs : Store) (topic : String) : TopicBucket :=
  (bucketGet? bs.messages topic).getD ⟨0, []⟩

/-- The messages stored under a list of entries, in entry order. -/
def decodeEntries (es : List (List Nat × Bytes)) : List Message :=
  es.filterMap (fun e => jsonUnmarshal e.2)

/-- The stored history of a topic, in key order. -/
def storedMessages (bs : Store) (topic : String) : List Message :=
  decodeEntries (topicBucket bs topic).entries

/-- One stored entry is well formed with respect to the bucket's
sequence counter: it is the encoding of a message, stored under the
big-endian key of its index, and the index is in `[1, seq]`. -/
def entryWF (seq : Nat) (e : List Nat × Bytes) : Bool :=
  match e.2 with
  | .enc m => e.1 == keyFromIndex m.index && decide (1 ≤ m.index) && decide (m.index ≤ seq)
  | .junk _ => false

/-- Entry keys are strictly ascending (bolt keeps keys sorted). -/
def sortedEntries : List (List Nat × Bytes) → Bool
  | [] => true
  | e :: rest => rest.all (fun e2 => keyLt e.1 e2.1) && sortedEntries rest

/-- A well-formed topic bucket: in-range sequence counter, well-formed
entries, sorted keys. -/
def bucketWF (b : TopicBucket) : Bool :=
  decide (b.seq < U64) && b.entries.all (entryWF b.seq) && sortedEntries b.entries

/-- A well-formed store: every topic bucket is well formed.  This is
the state invariant `append` maintains from an empty store. -/
def storeWF (bs : Store) : Bool :=
  bs.messages.all (fun p => bucketWF p.2)

theorem sortedEntries_pairwise (es : List (List Nat × Bytes)) :
    sortedEntries es = true ↔ es.Pairwise (fun e1 e2 => keyLt e1.1 e2.1 = true) := by
  induction es with
  | nil => simp [sortedEntries]
  | cons e rest ih =>
    simp [sortedEntries, ih, List.pairwise_cons, List.all_eq_true]

theorem bucketGet?_bucketSet_self (ms : List (String × TopicBucket)) (t : String)
    (b : TopicBucket) : bucketGet? (bucketSet ms t b) t = some b := by
  induction ms with
  | nil => simp [bucketSet, bucketGet?]
  | cons p rest ih =>
    by_cases h : p.1 = t
    · simp [bucketSet, bucketGet?, h]
    · simp [bucketSet, bucketGet?, h, ih]

theorem bucketGet?_bucketSet_other (ms : List (String × TopicBucket)) (t t' : String)
    (b : TopicBucket) (h : t ≠ t') : bucketGet? (bucketSet ms t b) t' = bucketGet? ms t' := by
  induction ms with
  | nil => simp [bucketSet, bucketGet?, h]
  | cons p rest ih =>
    by_cases hp : p.1 = t
    · simp [bucketSet, bucketGet?, hp, h]
    · simp [bucketSet, bucketGet?, hp, ih]

theorem keyLt_asymm (a b : List Nat) (h : keyLt a b = true) : keyLt b a = false := by
  induction a generalizing b with
  | nil =>
    cases b with
    | nil => simp [keyLt] at h
    | cons y ys => rfl
  | cons x xs ih =>
    cases b with
    | nil => simp [keyLt] at h
    | cons y ys =>
      simp only [keyLt] at h ⊢
      by_cases hxy : x < y
      · have h1 : ¬ y < x := by omega
        have h2 : ¬ y = x := by omega
        simp [h1, h2]
      · simp only [hxy, if_false] at h
        by_cases hxy2 : x = y
        · subst hxy2
          simp only [if_true] at h
          have h1 : ¬ x < x := by omega
          simp [h1, ih _ h]
        · simp [hxy2] at h

theorem keyLt_ne (a b : List Nat) (h : keyLt a b = true) : a ≠ b := by
  intro he
  subst he
  rw [keyLt_irrefl] at h
  exact Bool.false_ne_true h

/-- Putting a key greater than every present key appends at the end. -/
theorem putEntry_append (k : List Nat) (v : Bytes) (es : List (List Nat × Bytes))
    (h : ∀ e ∈ es, keyLt e.1 k = true) : putEntry k v es = es ++ [(k, v)] := by
  induction es with
  | nil => rfl
  | cons e rest ih =>
    have he : keyLt e.1 k = true := h e (by simp)
    have h1 : keyLt k e.1 = false := keyLt_asymm _ _ he
    have h2 : k ≠ e.1 := fun hc => keyLt_ne _ _ he hc.symm
    simp only [putEntry, h1, h2, if_false, Bool.false_eq_true]
    rw [ih (fun e2 h2 => h e2 (by simp [h2]))]
    simp

theorem entryWF_elim {seq : Nat} {e : List Nat × Bytes} (h : entryWF seq e = true) :
    ∃ m, e.2 = Bytes.enc m ∧ e.1 = keyFromIndex m.index ∧ 1 ≤ m.index ∧ m.index ≤ seq := by
  match he : e.2 with
  | .enc m =>
    refine ⟨m, rfl, ?_⟩
    rw [entryWF, he] at h
    simp only [Bool.and_eq_true, beq_iff_eq, decide_eq_true_eq] at h
    exact ⟨h.1.1, h.1.2, h.2⟩
  | .junk n => rw [entryWF, he] at h; exact absurd h (by simp)

theorem readMessages_ok (es : List (List Nat × Bytes))
    (h : ∀ e ∈ es, (jsonUnmarshal e.2).isSome = true) :
    readMessages es = .ok (decodeEntries es) := by
  induction es with
  | nil => rfl
  | cons e rest ih =>
    have he : (jsonUnmarshal e.2).isSome = true := h e (by simp)
    match hu : jsonUnmarshal e.2 with
    | none => rw [hu] at he; simp at he
    | some m =>
      simp only [readMessages, hu, decodeEntries, List.filterMap_cons, hu]
      rw [ih (fun e2 h2 => h e2 (by simp [h2]))]
      rfl

/-- Once a sorted scan reaches a key not below the target, every later
key is also not below it: `dropWhile` coincides with `filter`. -/
theorem dropWhile_eq_filter {α : Type} (p : α → Bool) (l : List α)
    (h : l.Pairwise (fun a b => p a = false → p b = false)) :
    l.dropWhile p = l.filter (fun a => !p a) := by
  induction l with
  | nil => rfl
  | cons a t ih =>
    rw [List.pairwise_cons] at h
    by_cases hp : p a = true
    · rw [List.dropWhile_cons_of_pos hp, List.filter_cons]
      simp only [hp, Bool.not_true, Bool.false_eq_true, if_false]
      exact ih h.2
    · have hp' : p a = false := by revert hp; cases p a <;> simp
      rw [List.dropWhile_cons_of_neg (by simp [hp']), List.filter_cons]
      simp only [hp', Bool.not_false, if_true]
      congr 1
      refine (List.filter_eq_self.mpr ?_).symm
      intro b hb
      simp [h.1 b hb hp']

theorem seekEntries_eq_filter (fi seq : Nat) (hfi : fi < U64) (hseq : seq < U64)
    (es : List (List Nat × Bytes)) (hwf : ∀ e ∈ es, entryWF seq e = true)
    (hs : sortedEntries es = true) :
    seekEntries (keyFromIndex fi) es =
      es.filter (fun e => !keyLt e.1 (keyFromIndex fi)) := by
  apply dropWhile_eq_filter
  apply ((sortedEntries_pairwise es).mp hs).imp_of_mem
  intro a b ha hb hab hpa
  obtain ⟨ma, -, hka, -, hma⟩ := entryWF_elim (hwf a ha)
  obtain ⟨mb, -, hkb, -, hmb⟩ := entryWF_elim (hwf b hb)
  rw [hka, hkb] at hab
  rw [hka] at hpa
  rw [hkb]
  rw [keyLt_keyFromIndex _ _ (by omega) (by omega)] at hab
  rw [keyLt_keyFromIndex _ _ (by omega) hfi] at hpa ⊢
  simp only [decide_eq_true_eq] at hab
  simp only [decide_eq_false_iff_not] at hpa ⊢
  omega

theorem decodeEntries_cons_some {e : List Nat × Bytes} {m : Message}
    (h : jsonUnmarshal e.2 = some m) (es : List (List Nat × Bytes)) :
    decodeEntries (e :: es) = m :: decodeEntries es := by
  simp [decodeEntries, List.filterMap_cons, h]

theorem decodeEntries_filter_key (fi seq : Nat) (hfi : fi < U64) (hseq : seq < U64)
    (es : List (List Nat × Bytes)) (hwf : ∀ e ∈ es, entryWF seq e = true) :
    decodeEntries (es.filter (fun e => !keyLt e.1 (keyFromIndex fi))) =
      (decodeEntries es).filter (fun m => decide (fi ≤ m.index)) := by
  induction es with
  | nil => rfl
  | cons e rest ih =>
    obtain ⟨m, henc, hk, -, hm⟩ := entryWF_elim (hwf e (by simp))
    have hrest := ih (fun e2 h2 => hwf e2 (by simp [h2]))
    have hkey : keyLt e.1 (keyFromIndex fi) = decide (m.index < fi) := by
      rw [hk, keyLt_keyFromIndex _ _ (by omega) hfi]
    have hdec : jsonUnmarshal e.2 = some m := by rw [henc]; rfl
    by_cases hle : fi ≤ m.index
    · have hkf : keyLt e.1 (keyFromIndex fi) = false := by
        rw [hkey]
        exact decide_eq_false (by omega)
      rw [List.filter_cons_of_pos (by simp [hkf])]
      simp only [decodeEntries_cons_some hdec]
      rw [List.filter_cons_of_pos (by simpa using hle), hrest]
    · have hkf : keyLt e.1 (keyFromIndex fi) = true := by
        rw [hkey]
        exact decide_eq_true (by omega)
      rw [List.filter_cons_of_neg (by simp [hkf])]
      simp only [decodeEntries_cons_some hdec]
      rw [List.filter_cons_of_neg (by simpa using hle), hrest]

theorem decodeEntries_mem {es : List (List Nat × Bytes)} {m : Message}
    (h : m ∈ decodeEntries es) : ∃ e ∈ es, jsonUnmarshal e.2 = some m := by
  rw [decodeEntries, List.mem_filterMap] at h
  exact h

/-- Stored messages of a well-formed bucket have strictly ascending
indices. -/
theorem decodeEntries_pairwise (seq : Nat) (hseq : seq < U64)
    (es : List (List Nat × Bytes)) (hwf : ∀ e ∈ es, entryWF seq e = true)
    (hs : sortedEntries es = true) :
    (decodeEntries es).Pairwise (fun m1 m2 => m1.index < m2.index) := by
  induction es with
  | nil => exact List.Pairwise.nil
  | cons e rest ih =>
    obtain ⟨m, henc, hk, -, hm⟩ := entryWF_elim (hwf e (by simp))
    rw [sortedEntries, Bool.and_eq_true, List.all_eq_true] at hs
    have hrest := ih (fun e2 h2 => hwf e2 (by simp [h2])) hs.2
    simp only [decodeEntries, List.filterMap_cons, henc, jsonUnmarshal]
    rw [List.pairwise_cons]
    refine ⟨?_, hrest⟩
    intro m2 hm2
    obtain ⟨e2, he2, hu2⟩ := decodeEntries_mem hm2
    obtain ⟨m2', henc2, hk2, -, hm2'⟩ := entryWF_elim (hwf e2 (by simp [he2]))
    rw [henc2, jsonUnmarshal] at hu2
    cases hu2
    have hlt := hs.1 e2 he2
    rw [hk, hk2, keyLt_keyFromIndex _ _ (by omega) (by omega)] at hlt
    simpa using hlt

theorem bucketGet?_mem {ms : List (String × TopicBucket)} {t : String} {b : TopicBucket}
    (h : bucketGet? ms t = some b) : (t, b) ∈ ms := by
  induction ms with
  | nil => simp [bucketGet?] at h
  | cons p rest ih =>
    obtain ⟨pt, pb⟩ := p
    rw [bucketGet?] at h
    by_cases hp : pt = t
    · simp only [hp, if_true, Option.some.injEq] at h
      subst hp
      subst h
      exact List.mem_cons_self _ _
    · simp only [hp, if_false] at h
      exact List.mem_cons_of_mem _ (ih h)

theorem storeWF_bucket {bs : Store} (hwf : storeWF bs = true) (t : String) :
    bucketWF (topicBucket bs t) = true := by
  rw [topicBucket]
  match hb : bucketGet? bs.messages t with
  | none => rfl
  | some b =>
    rw [storeWF, List.all_eq_true] at hwf
    exact hwf (t, b) (bucketGet?_mem hb)

theorem bucketWF_elim {b : TopicBucket} (h : bucketWF b = true) :
    b.seq < U64 ∧ (∀ e ∈ b.entries, entryWF b.seq e = true) ∧ sortedEntries b.entries = true := by
  rw [bucketWF, Bool.and_eq_true, Bool.and_eq_true, List.all_eq_true] at h
  exact ⟨by simpa using h.1.1, h.1.2, h.2⟩

/-- Characterization of `boltStore.get` on a well-formed store: it
succeeds, carries the current generation identifier, and returns the
topic's history filtered to indices `≥ fromIndex` when the caller's
generation matches, the full history otherwise. -/
theorem get_spec (bs : Store) (topic gid : String) (fi : Nat)
    (hwf : storeWF bs = true) (hfi : fi < U64) :
    get bs topic gid fi = .ok ⟨bs.generationID,
      if gid = bs.generationID
      then (storedMessages bs topic).filter (fun m => decide (fi ≤ m.index))
      else storedMessages bs topic⟩ := by
  have hb := bucketWF_elim (storeWF_bucket hwf topic)
  rw [get]
  match hbg : bucketGet? bs.messages topic with
  | none =>
    have hst : storedMessages bs topic = [] := by
      rw [storedMessages, topicBucket, hbg]
      rfl
    rw [hst]
    by_cases hg : gid = bs.generationID <;> simp [hg]
  | some b =>
    have hbb : topicBucket bs topic = b := by rw [topicBucket, hbg]; rfl
    rw [hbb] at hb
    obtain ⟨hseq, hents, hsort⟩ := hb
    have hdec : ∀ e ∈ b.entries, (jsonUnmarshal e.2).isSome = true := by
      intro e he
      obtain ⟨m, henc, -⟩ := entryWF_elim (hents e he)
      rw [henc, jsonUnmarshal]
      rfl
    have hst : storedMessages bs topic = decodeEntries b.entries := by
      rw [storedMessages, hbb]
    by_cases hg : gid = bs.generationID
    · simp only [hg, if_true]
      rw [seekEntries_eq_filter fi b.seq hfi hseq b.entries hents hsort]
      rw [readMessages_ok _ (fun e he => hdec e (List.mem_of_mem_filter he))]
      rw [decodeEntries_filter_key fi b.seq hfi hseq b.entries hents, hst]
      rfl
    · simp only [hg, if_false]
      rw [readMessages_ok _ hdec, hst]
      rfl

/-- Stored histories of a well-formed store are strictly ascending in
index. -/
theorem storedMessages_pairwise (bs : Store) (topic : String) (hwf : storeWF bs = true) :
    (storedMessages bs topic).Pairwise (fun m1 m2 => m1.index < m2.index) := by
  obtain ⟨hseq, hents, hsort⟩ := bucketWF_elim (storeWF_bucket hwf topic)
  exact decodeEntries_pairwise _ hseq _ hents hsort

/-- Whether a stored value decodes to a message older than the cutoff
(the deletion test of `boltStore.gc`). -/
def entryOld (c : Int) (e : List Nat × Bytes) : Bool :=
  match jsonUnmarshal e.2 with
  | some n => decide (n.timestamp < c)
  | none => false

/-- The number of stored records with timestamp strictly before the
cutoff, over the whole store. -/
def countOldStore (bs : Store) (c : Int) : Nat :=
  (bs.messages.map
    (fun p => ((decodeEntries p.2.entries).filter (fun m => decide (m.timestamp < c))).length)).sum

theorem gcEntries_ok (c : Int) (es : List (List Nat × Bytes))
    (h : ∀ e ∈ es, (jsonUnmarshal e.2).isSome = true) :
    ∀ acc, gcEntries c acc es =
      (es.filter (fun e => !entryOld c e), acc + (es.filter (entryOld c)).length, none) := by
  induction es with
  | nil => intro acc; simp [gcEntries]
  | cons e rest ih =>
    intro acc
    obtain ⟨k, v⟩ := e
    have he := h (k, v) (by simp)
    have hrest := ih (fun e2 h2 => h e2 (by simp [h2]))
    match hu : jsonUnmarshal v with
    | none => rw [hu] at he; simp at he
    | some n =>
      have hold : entryOld c (k, v) = decide (n.timestamp < c) := by
        simp [entryOld, hu]
      by_cases hts : n.timestamp < c
      · have h1 : entryOld c (k, v) = true := by rw [hold]; exact decide_eq_true hts
        simp only [gcEntries, hu, hts, if_true, hrest (acc + 1), List.filter_cons, h1,
          Bool.not_true, Bool.false_eq_true, if_false, if_true, List.length_cons,
          Prod.mk.injEq]
        exact ⟨trivial, by omega, trivial⟩
      · have h1 : entryOld c (k, v) = false := by rw [hold]; exact decide_eq_false hts
        simp only [gcEntries, hu, hts, if_false, hrest acc, List.filter_cons, h1,
          Bool.not_false, Bool.false_eq_true, if_true, if_false]

theorem gcTopics_ok (c : Int) (ms : List (String × TopicBucket))
    (h : ∀ p ∈ ms, ∀ e ∈ p.2.entries, (jsonUnmarshal e.2).isSome = true) :
    ∀ acc, gcTopics c acc ms =
      (ms.map (fun p => (p.1, ⟨p.2.seq, p.2.entries.filter (fun e => !entryOld c e)⟩)),
       acc + (ms.map (fun p => (p.2.entries.filter (entryOld c)).length)).sum, none) := by
  induction ms with
  | nil => intro acc; simp [gcTopics]
  | cons p rest ih =>
    intro acc
    obtain ⟨t, b⟩ := p
    have hb := h (t, b) (by simp)
    have hrest := ih (fun p2 h2 => h p2 (by simp [h2]))
    simp only [gcTopics, gcEntries_ok c b.entries hb acc,
      hrest (acc + (b.entries.filter (entryOld c)).length), List.map_cons, List.sum_cons,
      Prod.mk.injEq]
    exact ⟨trivial, by omega, trivial⟩

/-- The bucket list a successful gc cycle leaves behind: every entry
at or after the cutoff, sequence counters untouched. -/
def gcResultMessages (ms : List (String × TopicBucket)) (c : Int) :
    List (String × TopicBucket) :=
  ms.map (fun p => (p.1, ⟨p.2.seq, p.2.entries.filter (fun e => !entryOld c e)⟩))

/-- On a store whose every value decodes, a gc cycle succeeds,
keeps exactly the entries at or after the cutoff (same sequence
counters), and counts the deleted ones. -/
theorem gc_ok (bs : Store) (c : Int)
    (h : ∀ p ∈ bs.messages, ∀ e ∈ p.2.entries, (jsonUnmarshal e.2).isSome = true) :
    gc bs c =
      (⟨bs.generationID, gcResultMessages bs.messages c⟩,
       (bs.messages.map (fun p => (p.2.entries.filter (entryOld c)).length)).sum, none) := by
  simp [gc, gcTopics_ok c bs.messages h 0, gcResultMessages]

theorem storeWF_decodes {bs : Store} (hwf : storeWF bs = true) :
    ∀ p ∈ bs.messages, ∀ e ∈ p.2.entries, (jsonUnmarshal e.2).isSome = true := by
  intro p hp e he
  rw [storeWF, List.all_eq_true] at hwf
  obtain ⟨-, hents, -⟩ := bucketWF_elim (hwf p hp)
  obtain ⟨m, henc, -⟩ := entryWF_elim (hents e he)
  rw [henc, jsonUnmarshal]
  rfl

theorem decodeEntries_filter_old (c : Int) (es : List (List Nat × Bytes))
    (h : ∀ e ∈ es, (jsonUnmarshal e.2).isSome = true) :
    decodeEntries (es.filter (fun e => !entryOld c e)) =
      (decodeEntries es).filter (fun m => decide (c ≤ m.timestamp)) := by
  induction es with
  | nil => rfl
  | cons e rest ih =>
    have he := h e (by simp)
    have hrest := ih (fun e2 h2 => h e2 (by simp [h2]))
    match hu : jsonUnmarshal e.2 with
    | none => rw [hu] at he; simp at he
    | some n =>
      have hold : entryOld c e = decide (n.timestamp < c) := by
        simp [entryOld, hu]
      by_cases hts : n.timestamp < c
      · have h1 : entryOld c e = true := by rw [hold]; exact decide_eq_true hts
        have h2 : ¬ c ≤ n.timestamp := by omega
        rw [List.filter_cons_of_neg (by simp [h1]), decodeEntries_cons_some hu,
          List.filter_cons_of_neg (by simpa using h2), hrest]
      · have h1 : entryOld c e = false := by rw [hold]; exact decide_eq_false hts
        have h2 : c ≤ n.timestamp := by omega
        rw [List.filter_cons_of_pos (by simp [h1]), decodeEntries_cons_some hu,
          decodeEntries_cons_some hu, List.filter_cons_of_pos (by simpa using h2), hrest]

theorem filter_old_length (c : Int) (es : List (List Nat × Bytes))
    (h : ∀ e ∈ es, (jsonUnmarshal e.2).isSome = true) :
    (es.filter (entryOld c)).length =
      ((decodeEntries es).filter (fun m => decide (m.timestamp < c))).length := by
  induction es with
  | nil => rfl
  | cons e rest ih =>
    have he := h e (by simp)
    have hrest := ih (fun e2 h2 => h e2 (by simp [h2]))
    match hu : jsonUnmarshal e.2 with
    | none => rw [hu] at he; simp at he
    | some n =>
      have hold : entryOld c e = decide (n.timestamp < c) := by
        simp [entryOld, hu]
      by_cases hts : n.timestamp < c
      · have h1 : entryOld c e = true := by rw [hold]; exact decide_eq_true hts
        rw [List.filter_cons_of_pos (by simp [h1]), decodeEntries_cons_some hu,
          List.filter_cons_of_pos (by simpa using hts)]
        simpa using hrest
      · have h1 : entryOld c e = false := by rw [hold]; exact decide_eq_false hts
        rw [List.filter_cons_of_neg (by simp [h1]), decodeEntries_cons_some hu,
          List.filter_cons_of_neg (by simpa using hts), hrest]

theorem bucketWF_filter {b : TopicBucket} (p : (List Nat × Bytes) → Bool)
    (h : bucketWF b = true) : bucketWF ⟨b.seq, b.entries.filter p⟩ = true := by
  obtain ⟨hseq, hents, hsort⟩ := bucketWF_elim h
  rw [bucketWF, Bool.and_eq_true, Bool.and_eq_true]
  refine ⟨⟨by simpa using hseq, ?_⟩, ?_⟩
  · rw [List.all_eq_true]
    intro e he
    exact hents e (List.mem_of_mem_filter he)
  · rw [sortedEntries_pairwise]
    exact ((sortedEntries_pairwise _).mp hsort).filter p

theorem storeWF_gc (g : String) (ms : List (String × TopicBucket)) (c : Int)
    (hwf : storeWF ⟨g, ms⟩ = true) :
    storeWF ⟨g, gcResultMessages ms c⟩ = true := by
  rw [storeWF, List.all_eq_true]
  intro q hq
  rw [gcResultMessages, List.mem_map] at hq
  obtain ⟨p, hp, hfq⟩ := hq
  rw [storeWF, List.all_eq_true] at hwf
  have := bucketWF_filter (fun e => !entryOld c e) (hwf p hp)
  rw [← hfq]
  exact this

theorem bucketGet?_map (f : TopicBucket → TopicBucket) (ms : List (String × TopicBucket))
    (t : String) :
    bucketGet? (ms.map (fun p => (p.1, f p.2))) t = (bucketGet? ms t).map f := by
  induction ms with
  | nil => rfl
  | cons p rest ih =>
    obtain ⟨pt, pb⟩ := p
    by_cases h : pt = t <;> simp [bucketGet?, h, ih]

theorem old_and_kept_false (c t : Int) : (decide (t < c) && decide (c ≤ t)) = false := by
  by_cases h : t < c
  · have h2 : ¬ c ≤ t := by omega
    simp [h, h2]
  · simp [h]

/-- Whether `json.Marshal` accepts a payload (so `append` succeeds). -/
def serializable : Data → Bool
  | .json _ => true
  | .unserializable _ => false

/-- Run a sequence of appends (payload and wall-clock time each) on one
topic, as the append loop of the ordering regression test does. -/
def appendList (bs : Store) (topic : String) : List (Data × Int) → Store
  | [] => bs
  | (d, t) :: rest => appendList (append bs topic d t).1 topic rest

/-- The entries a run of successful appends writes when the sequence
counter starts at `s`. -/
def mkEntries (s : Nat) : List (Data × Int) → List (List Nat × Bytes)
  | [] => []
  | (d, t) :: rest => (keyFromIndex (s + 1), .enc ⟨s + 1, t, d⟩) :: mkEntries (s + 1) rest

theorem append_empty (g topic : String) (d : Data) (t : Int) (hd : serializable d = true) :
    append ⟨g, []⟩ topic d t =
      (⟨g, [(topic, ⟨1, [(keyFromIndex 1, .enc ⟨1, t, d⟩)]⟩)]⟩, none) := by
  have h1 : (0 + 1) % U64 = 1 := by norm_num [U64]
  cases d with
  | unserializable n => simp [serializable] at hd
  | json str =>
    simp [append, dbUpdate, appendTx, bucketGet?, jsonMarshal, h1, bucketSet, putEntry]

theorem append_single (g topic : String) (s : Nat) (es : List (List Nat × Bytes))
    (d : Data) (t : Int) (hd : serializable d = true) (hs : s + 1 < U64)
    (hkeys : ∀ e ∈ es, ∃ i, i ≤ s ∧ e.1 = keyFromIndex i) :
    append ⟨g, [(topic, ⟨s, es⟩)]⟩ topic d t =
      (⟨g, [(topic, ⟨s + 1, es ++ [(keyFromIndex (s + 1), .enc ⟨s + 1, t, d⟩)]⟩)]⟩, none) := by
  have h1 : (s + 1) % U64 = s + 1 := Nat.mod_eq_of_lt hs
  have hput : putEntry (keyFromIndex (s + 1)) (.enc ⟨s + 1, t, d⟩) es =
      es ++ [(keyFromIndex (s + 1), .enc ⟨s + 1, t, d⟩)] := by
    apply putEntry_append
    intro e he
    obtain ⟨i, hi, hei⟩ := hkeys e he
    rw [hei, keyLt_keyFromIndex i (s + 1) (by omega) hs]
    exact decide_eq_true (by omega)
  cases d with
  | unserializable n => simp [serializable] at hd
  | json str =>
    simp [append, dbUpdate, appendTx, bucketGet?, jsonMarshal, h1, bucketSet, hput]

theorem appendList_single (topic : String) (items : List (Data × Int)) :
    ∀ (g : String) (s : Nat) (es : List (List Nat × Bytes)),
      (∀ x ∈ items, serializable x.1 = true) →
      s + items.length < U64 →
      (∀ e ∈ es, ∃ i, i ≤ s ∧ e.1 = keyFromIndex i) →
      appendList ⟨g, [(topic, ⟨s, es⟩)]⟩ topic items =
        ⟨g, [(topic, ⟨s + items.length, es ++ mkEntries s items⟩)]⟩ := by
  induction items with
  | nil => intro g s es _ _ _; simp [appendList, mkEntries]
  | cons x rest ih =>
    obtain ⟨d, t⟩ := x
    intro g s es hser hlen hkeys
    have hd : serializable d = true := hser (d, t) (by simp)
    have hstep := append_single g topic s es d t hd (by rw [List.length_cons] at hlen; omega) hkeys
    rw [appendList, hstep]
    have hkeys' : ∀ e ∈ es ++ [(keyFromIndex (s + 1), Bytes.enc ⟨s + 1, t, d⟩)],
        ∃ i, i ≤ s + 1 ∧ e.1 = keyFromIndex i := by
      intro e he
      rw [List.mem_append] at he
      rcases he with he | he
      · obtain ⟨i, hi, hei⟩ := hkeys e he
        exact ⟨i, by omega, hei⟩
      · simp at he
        exact ⟨s + 1, by omega, by rw [he]⟩
    rw [ih g (s + 1) _ (fun x2 h2 => hser x2 (by simp [h2])) (by rw [List.length_cons] at hlen; omega) hkeys']
    rw [mkEntries]
    simp only [List.length_cons, List.append_assoc, List.singleton_append]
    have hseq : s + 1 + rest.length = s + (rest.length + 1) := by omega
    rw [hseq]

theorem mkEntries_decode (s : Nat) (items : List (Data × Int)) :
    ∀ e ∈ mkEntries s items, (jsonUnmarshal e.2).isSome = true := by
  induction items generalizing s with
  | nil => intro e he; simp [mkEntries] at he
  | cons x rest ih =>
    obtain ⟨d, t⟩ := x
    intro e he
    rw [mkEntries] at he
    rcases List.mem_cons.mp he with he | he
    · rw [he]; rfl
    · exact ih (s + 1) e he

theorem mkEntries_keys (s : Nat) (items : List (Data × Int)) :
    ∀ e ∈ mkEntries s items, ∃ i, s < i ∧ i ≤ s + items.length ∧ e.1 = keyFromIndex i := by
  induction items generalizing s with
  | nil => intro e he; simp [mkEntries] at he
  | cons x rest ih =>
    obtain ⟨d, t⟩ := x
    intro e he
    rw [mkEntries] at he
    rcases List.mem_cons.mp he with he | he
    · exact ⟨s + 1, by omega, by simp, by rw [he]⟩
    · obtain ⟨i, h1, h2, h3⟩ := ih (s + 1) e he
      exact ⟨i, by omega, by simp; omega, h3⟩

theorem mkEntries_indices (s : Nat) (items : List (Data × Int)) :
    (decodeEntries (mkEntries s items)).map (fun m => m.index) =
      List.range' (s + 1) items.length := by
  induction items generalizing s with
  | nil => rfl
  | cons x rest ih =>
    obtain ⟨d, t⟩ := x
    rw [mkEntries, decodeEntries_cons_some (by rfl), List.map_cons, ih (s + 1),
      List.length_cons, List.range'_succ]

theorem seekEntries_zero (es : List (List Nat × Bytes))
    (h : ∀ e ∈ es, ∃ i, i < U64 ∧ e.1 = keyFromIndex i) :
    seekEntries (keyFromIndex 0) es = es := by
  cases es with
  | nil => rfl
  | cons e rest =>
    obtain ⟨i, hi, hei⟩ := h e (by simp)
    rw [seekEntries, List.dropWhile_cons_of_neg]
    rw [hei, keyLt_keyFromIndex i 0 hi (by norm_num [U64])]
    simp

/-- C1: starting from a freshly initialized store, after `N` successful
appends to a topic, a matching-generation `get` from index 0 succeeds
and returns exactly `N` records whose indices are `1, 2, ..., N` in
that order — unique, gapless, strictly ascending. -/
theorem claim_C1_append_indices (u T : String) (items : List (Data × Int))
    (hser : ∀ x ∈ items, serializable x.1 = true)
    (hlen : items.length < U64) :
    (get (appendList (newBoltStore emptyDB u).1 T items) T u 0).map
        (fun r => r.messages.map (fun m => m.index)) =
      .ok (List.range' 1 items.length) := by
  cases items with
  | nil =>
    rfl
  | cons x rest =>
    obtain ⟨d, t⟩ := x
    have hd : serializable d = true := hser (d, t) (by simp)
    rw [List.length_cons] at hlen
    have hstore : appendList (newBoltStore emptyDB u).1 T ((d, t) :: rest) =
        ⟨u, [(T, ⟨((d, t) :: rest).length, mkEntries 0 ((d, t) :: rest)⟩)]⟩ := by
      show appendList (⟨u, []⟩ : Store) T ((d, t) :: rest) = _
      rw [appendList]
      simp only [append_empty u T d t hd]
      rw [appendList_single T rest u 1 _ (fun x2 h2 => hser x2 (by simp [h2]))
        (by omega)
        (by intro e he
            simp at he
            exact ⟨1, by omega, by rw [he]⟩)]
      simp only [List.singleton_append, List.length_cons, mkEntries, Nat.zero_add]
      have h11 : 1 + rest.length = rest.length + 1 := by omega
      rw [h11]
    rw [hstore]
    have hbg : bucketGet? [(T, (⟨((d, t) :: rest).length, mkEntries 0 ((d, t) :: rest)⟩ :
        TopicBucket))] T = some ⟨((d, t) :: rest).length, mkEntries 0 ((d, t) :: rest)⟩ := by
      simp [bucketGet?]
    have hseek : seekEntries (keyFromIndex 0) (mkEntries 0 ((d, t) :: rest)) =
        mkEntries 0 ((d, t) :: rest) := by
      apply seekEntries_zero
      intro e he
      obtain ⟨i, h1, h2, h3⟩ := mkEntries_keys 0 ((d, t) :: rest) e he
      rw [List.length_cons] at h2
      exact ⟨i, by omega, h3⟩
    have hread := readMessages_ok (mkEntries 0 ((d, t) :: rest)) (mkEntries_decode 0 _)
    simp only [get, hbg, if_true, hseek, hread, Except.map]
    rw [mkEntries_indices 0 ((d, t) :: rest)]

/-- Witness for C1: three appends, indices 1, 2, 3. -/
theorem claim_C1_witness :
    (∀ x ∈ [((.json "a" : Data), (1 : Int)), (.json "b", 2), (.json "c", 3)],
        serializable x.1 = true) ∧
      ([((.json "a" : Data), (1 : Int)), (.json "b", 2), (.json "c", 3)].length < U64) ∧
      (get (appendList (newBoltStore emptyDB "g").1 "t"
            [((.json "a" : Data), (1 : Int)), (.json "b", 2), (.json "c", 3)]) "t" "g" 0).map
          (fun r => r.messages.map (fun m => m.index)) =
        .ok (List.range' 1 3) :=
  ⟨by decide, by decide,
    claim_C1_append_indices "g" "t"
      [((.json "a" : Data), (1 : Int)), (.json "b", 2), (.json "c", 3)]
      (by decide) (by decide)⟩

theorem append_success_parts (bs : Store) (topic : String) (d : Data) (t : Int)
    (hd : serializable d = true) :
    append bs topic d t =
      (⟨bs.generationID, bucketSet bs.messages topic
          ⟨((topicBucket bs topic).seq + 1) % U64,
           putEntry (keyFromIndex (((topicBucket bs topic).seq + 1) % U64))
             (.enc ⟨((topicBucket bs topic).seq + 1) % U64, t, d⟩)
             (topicBucket bs topic).entries⟩⟩, none) := by
  cases d with
  | unserializable n => simp [serializable] at hd
  | json str => simp [append, dbUpdate, appendTx, jsonMarshal, topicBucket]

theorem append_fail (bs : Store) (topic : String) (d : Data) (t : Int)
    (hd : serializable d = false) :
    append bs topic d t = (bs, some "error marshalling message") := by
  cases d with
  | json str => simp [serializable] at hd
  | unserializable n => simp [append, dbUpdate, appendTx, jsonMarshal]

theorem append_seq_self (bs : Store) (topic : String) (d : Data) (t : Int)
    (hd : serializable d = true) :
    (topicBucket (append bs topic d t).1 topic).seq =
      ((topicBucket bs topic).seq + 1) % U64 := by
  rw [append_success_parts bs topic d t hd]
  show (topicBucket ⟨bs.generationID, bucketSet bs.messages topic _⟩ topic).seq = _
  rw [topicBucket]
  show ((bucketGet? (bucketSet bs.messages topic _) topic).getD ⟨0, []⟩).seq = _
  rw [bucketGet?_bucketSet_self]
  rfl

theorem append_bucket_other (bs : Store) (topic T : String) (d : Data) (t : Int)
    (hd : serializable d = true) (hne : topic ≠ T) :
    topicBucket (append bs topic d t).1 T = topicBucket bs T := by
  rw [append_success_parts bs topic d t hd]
  show topicBucket ⟨bs.generationID, bucketSet bs.messages topic _⟩ T = _
  rw [topicBucket]
  show ((bucketGet? (bucketSet bs.messages topic _) T).getD ⟨0, []⟩) = _
  rw [bucketGet?_bucketSet_other _ _ _ _ hne]
  rfl

theorem topicBucket_seq_eq (bs : Store) (T : String) :
    (topicBucket bs T).seq = ((bucketGet? bs.messages T).map TopicBucket.seq).getD 0 := by
  rw [topicBucket]
  cases bucketGet? bs.messages T <;> rfl

theorem gcTopics_seq (c : Int) (t : String) (ms : List (String × TopicBucket)) :
    ∀ (acc : Nat) (ms' : List (String × TopicBucket)) (k : Nat),
      gcTopics c acc ms = (ms', k, none) →
      (bucketGet? ms' t).map TopicBucket.seq = (bucketGet? ms t).map TopicBucket.seq := by
  induction ms with
  | nil =>
    intro acc ms' k h
    simp only [gcTopics, Prod.mk.injEq] at h
    rw [← h.1]
  | cons p rest ih =>
    obtain ⟨pt, pb⟩ := p
    intro acc ms' k h
    match hge : gcEntries c acc pb.entries with
    | (es, cc, some e) =>
      have hx : gcTopics c acc ((pt, pb) :: rest) = ([], cc, some e) := by
        simp [gcTopics, hge]
      rw [hx] at h
      simp at h
    | (es, cc, none) =>
      match hgt : gcTopics c cc rest with
      | (ms2, c2, e2) =>
        have hx : gcTopics c acc ((pt, pb) :: rest) =
            ((pt, ⟨pb.seq, es⟩) :: ms2, c2, e2) := by
          simp [gcTopics, hge, hgt]
        rw [hx] at h
        simp only [Prod.mk.injEq] at h
        obtain ⟨h1, -, h3⟩ := h
        subst h3
        rw [← h1]
        by_cases hp : pt = t
        · simp [bucketGet?, hp]
        · simp only [bucketGet?, hp, if_false]
          exact ih cc ms2 c2 hgt

theorem gc_topicSeq (bs : Store) (c : Int) (T : String) :
    (topicBucket (gc bs c).1 T).seq = (topicBucket bs T).seq := by
  match hx : gcTopics c 0 bs.messages with
  | (ms, k, none) =>
    have hg : (gc bs c).1 = ⟨bs.generationID, ms⟩ := by simp [gc, hx]
    rw [hg, topicBucket_seq_eq, topicBucket_seq_eq]
    show ((bucketGet? ms T).map TopicBucket.seq).getD 0 = _
    rw [gcTopics_seq c T bs.messages 0 ms k hx]
  | (ms, k, some e) =>
    have hg : (gc bs c).1 = bs := by simp [gc, hx]
    rw [hg]

theorem reopen_id (bs : Store) (u : String) :
    newBoltStore (closeStore bs) u = (bs, closeStore bs) := by
  cases bs
  rfl

/-- One step in the lifetime of the dataset: an append, a gc cycle, or
a close-and-reopen of the same storage location. -/
inductive LifeOp where
  | appendOp (topic : String) (d : Data) (t : Int)
  | gcOp (olderThan : Int)
  | reopenOp (freshUUID : String)

/-- Apply a lifetime step to the store. -/
def lifeStep (bs : Store) : LifeOp → Store
  | .appendOp topic d t => (append bs topic d t).1
  | .gcOp c => (gc bs c).1
  | .reopenOp u => (newBoltStore (closeStore bs) u).1

/-- The index a step assigns in topic `T` (empty unless it is a
successful append to `T`). -/
def assignedIdx (bs : Store) (T : String) : LifeOp → List Nat
  | .appendOp topic d _ =>
    if topic = T ∧ serializable d = true
    then [((topicBucket bs topic).seq + 1) % U64]
    else []
  | _ => []

/-- Run a lifetime trace, collecting the indices assigned in topic `T`. -/
def runLife (bs : Store) (T : String) : List LifeOp → Store × List Nat
  | [] => (bs, [])
  | op :: rest =>
    let as := assignedIdx bs T op
    let r := runLife (lifeStep bs op) T rest
    (r.1, as ++ r.2)

/-- The number of successful appends to `T` in a trace. -/
def countTAppends (T : String) : List LifeOp → Nat
  | [] => 0
  | .appendOp topic d _ :: rest =>
    (if topic = T ∧ serializable d = true then 1 else 0) + countTAppends T rest
  | _ :: rest => countTAppends T rest

theorem runLife_seq (T : String) (ops : List LifeOp) :
    ∀ (bs : Store) (s : Nat),
      (topicBucket bs T).seq = s →
      s + countTAppends T ops < U64 →
      (runLife bs T ops).2 = List.range' (s + 1) (countTAppends T ops) ∧
        (topicBucket (runLife bs T ops).1 T).seq = s + countTAppends T ops := by
  induction ops with
  | nil =>
    intro bs s hs hlt
    simp [runLife, countTAppends, hs]
  | cons op rest ih =>
    intro bs s hs hlt
    match op with
    | .appendOp topic d t =>
      by_cases hc : topic = T ∧ serializable d = true
      · obtain ⟨hT, hd⟩ := hc
        subst hT
        have hcnt : countTAppends topic (.appendOp topic d t :: rest) =
            countTAppends topic rest + 1 := by
          simp only [countTAppends]
          rw [if_pos ⟨trivial, hd⟩]
          omega
        rw [hcnt] at hlt ⊢
        have hs1 : ((topicBucket bs topic).seq + 1) % U64 = s + 1 := by
          rw [hs]
          exact Nat.mod_eq_of_lt (by omega)
        have hseq' : (topicBucket (append bs topic d t).1 topic).seq = s + 1 := by
          rw [append_seq_self bs topic d t hd, hs1]
        have hrec := ih (append bs topic d t).1 (s + 1) hseq' (by omega)
        have hassign : assignedIdx bs topic (.appendOp topic d t) = [s + 1] := by
          simp [assignedIdx, hd, hs1]
        rw [runLife]
        simp only [lifeStep, hassign, hrec.1]
        refine ⟨?_, by rw [hrec.2]; omega⟩
        rw [List.range'_succ]
        rfl
      · have hcnt : countTAppends T (.appendOp topic d t :: rest) = countTAppends T rest := by
          simp only [countTAppends, if_neg hc, Nat.zero_add]
        have hassign : assignedIdx bs T (.appendOp topic d t) = [] := by
          simp [assignedIdx, hc]
        have hbs' : (topicBucket (lifeStep bs (.appendOp topic d t)) T).seq = s := by
          show (topicBucket (append bs topic d t).1 T).seq = s
          by_cases hd : serializable d = true
          · have hT : topic ≠ T := fun he => hc ⟨he, hd⟩
            rw [append_bucket_other bs topic T d t hd hT, hs]
          · have hd' : serializable d = false := by revert hd; cases serializable d <;> simp
            rw [append_fail bs topic d t hd', hs]
        rw [hcnt] at hlt ⊢
        have hrec := ih (lifeStep bs (.appendOp topic d t)) s hbs' hlt
        rw [runLife]
        simp only [hassign, hrec.1, List.nil_append]
        exact ⟨trivial, hrec.2⟩
    | .gcOp c =>
      have hbs' : (topicBucket (lifeStep bs (.gcOp c)) T).seq = s := by
        show (topicBucket (gc bs c).1 T).seq = s
        rw [gc_topicSeq, hs]
      have hcnt : countTAppends T (.gcOp c :: rest) = countTAppends T rest := rfl
      rw [hcnt] at hlt ⊢
      have hrec := ih (lifeStep bs (.gcOp c)) s hbs' hlt
      rw [runLife]
      simp only [assignedIdx, hrec.1, List.nil_append]
      exact ⟨trivial, hrec.2⟩
    | .reopenOp u =>
      have hbs' : (topicBucket (lifeStep bs (.reopenOp u)) T).seq = s := by
        show (topicBucket (newBoltStore (closeStore bs) u).1 T).seq = s
        rw [reopen_id, hs]
      have hcnt : countTAppends T (.reopenOp u :: rest) = countTAppends T rest := rfl
      rw [hcnt] at hlt ⊢
      have hrec := ih (lifeStep bs (.reopenOp u)) s hbs' hlt
      rw [runLife]
      simp only [assignedIdx, hrec.1, List.nil_append]
      exact ⟨trivial, hrec.2⟩

/-- C7: over any lifetime trace of the dataset — appends to any topics,
gc cycles, closes and reopens — the indices assigned in topic `T`
start at 1 and are exactly consecutive: strictly increasing, gapless,
none assigned twice; eviction and reopening never reset the counter. -/
theorem claim_C7_durable_sequencing (u T : String) (ops : List LifeOp)
    (hcnt : countTAppends T ops < U64) :
    (runLife (newBoltStore emptyDB u).1 T ops).2 =
      List.range' 1 (countTAppends T ops) :=
  (runLife_seq T ops (newBoltStore emptyDB u).1 0 rfl (by omega)).1

/-- Witness for C7: a trace interleaving appends to `T` and another
topic, a failing append, a gc that evicts everything, and a reopen —
the `T` indices assigned are 1, 2, 3. -/
theorem claim_C7_witness :
    countTAppends "T" [.appendOp "T" (.json "a") 1, .gcOp 10, .appendOp "T" (.json "b") 2,
        .reopenOp "zz", .appendOp "other" (.json "x") 3,
        .appendOp "T" (.unserializable 0) 4, .appendOp "T" (.json "c") 5] < U64 ∧
      (runLife (newBoltStore emptyDB "g").1 "T"
          [.appendOp "T" (.json "a") 1, .gcOp 10, .appendOp "T" (.json "b") 2,
           .reopenOp "zz", .appendOp "other" (.json "x") 3,
           .appendOp "T" (.unserializable 0) 4, .appendOp "T" (.json "c") 5]).2 =
        List.range' 1 3 :=
  ⟨by decide,
    claim_C7_durable_sequencing "g" "T"
      [.appendOp "T" (.json "a") 1, .gcOp 10, .appendOp "T" (.json "b") 2,
       .reopenOp "zz", .appendOp "other" (.json "x") 3,
       .appendOp "T" (.unserializable 0) 4, .appendOp "T" (.json "c") 5] (by decide)⟩

theorem entryWF_mono {s s' : Nat} (h : s ≤ s') {e : List Nat × Bytes}
    (he : entryWF s e = true) : entryWF s' e = true := by
  obtain ⟨k, v⟩ := e
  obtain ⟨m, henc, hk, h1, h2⟩ := entryWF_elim he
  simp only at henc hk
  subst henc
  show (k == keyFromIndex m.index && decide (1 ≤ m.index) && decide (m.index ≤ s')) = true
  simp [hk, h1, le_trans h2 h]

theorem storedMessages_bounds (bs : Store) (T : String) (hwf : storeWF bs = true) :
    ∀ m ∈ storedMessages bs T, 1 ≤ m.index ∧ m.index ≤ (topicBucket bs T).seq := by
  intro m hm
  obtain ⟨hseq, hents, hsort⟩ := bucketWF_elim (storeWF_bucket hwf T)
  obtain ⟨e, he, hu⟩ := decodeEntries_mem hm
  obtain ⟨m', henc, hk, h1, h2⟩ := entryWF_elim (hents e he)
  rw [henc, jsonUnmarshal] at hu
  cases hu
  exact ⟨h1, h2⟩

/-- The sum of all sequence counters of the root bucket — the quantity
bounding every index the store can assign next. -/
def sumSeq (ms : List (String × TopicBucket)) : Nat :=
  (ms.map (fun p => p.2.seq)).sum

theorem topicSeq_le_sumSeq (bs : Store) (T : String) :
    (topicBucket bs T).seq ≤ sumSeq bs.messages := by
  rw [topicBucket]
  match hb : bucketGet? bs.messages T with
  | none => exact Nat.zero_le _
  | some b =>
    have hm : b.seq ∈ bs.messages.map (fun p => p.2.seq) :=
      List.mem_map.mpr ⟨(T, b), bucketGet?_mem hb, rfl⟩
    exact List.single_le_sum (fun x _ => Nat.zero_le x) _ hm

theorem sumSeq_bucketSet_some (ms : List (String × TopicBucket)) (t : String)
    (b b' : TopicBucket) (hb : bucketGet? ms t = some b) :
    sumSeq (bucketSet ms t b') + b.seq = sumSeq ms + b'.seq := by
  induction ms with
  | nil => simp [bucketGet?] at hb
  | cons p rest ih =>
    obtain ⟨pt, pb⟩ := p
    rw [bucketGet?] at hb
    by_cases hp : pt = t
    · simp only [hp, if_true, Option.some.injEq] at hb
      subst hb
      simp [bucketSet, hp, sumSeq]
      omega
    · simp only [hp, if_false] at hb
      simp only [bucketSet, hp, if_false, sumSeq, List.map_cons, List.sum_cons]
      have := ih hb
      rw [sumSeq] at this
      rw [sumSeq] at this
      omega

theorem sumSeq_bucketSet_none (ms : List (String × TopicBucket)) (t : String)
    (b' : TopicBucket) (hb : bucketGet? ms t = none) :
    sumSeq (bucketSet ms t b') = sumSeq ms + b'.seq := by
  induction ms with
  | nil => simp [bucketSet, sumSeq]
  | cons p rest ih =>
    obtain ⟨pt, pb⟩ := p
    rw [bucketGet?] at hb
    by_cases hp : pt = t
    · simp [hp] at hb
    · simp only [hp, if_false] at hb
      simp only [bucketSet, hp, if_false, sumSeq, List.map_cons, List.sum_cons]
      have := ih hb
      rw [sumSeq] at this
      rw [sumSeq] at this
      omega

theorem sumSeq_bucketSet_succ_le (ms : List (String × TopicBucket)) (t : String)
    (B : TopicBucket)
    (hB : B.seq ≤ ((bucketGet? ms t).map TopicBucket.seq).getD 0 + 1) :
    sumSeq (bucketSet ms t B) ≤ sumSeq ms + 1 := by
  match hb : bucketGet? ms t with
  | some b =>
    have heq := sumSeq_bucketSet_some ms t b B hb
    rw [hb] at hB
    simp only [Option.map_some', Option.getD_some] at hB
    omega
  | none =>
    have heq := sumSeq_bucketSet_none ms t B hb
    rw [hb] at hB
    simp only [Option.map_none', Option.getD_none] at hB
    omega

theorem sumSeq_append_le (bs : Store) (topic : String) (d : Data) (t : Int) :
    sumSeq (append bs topic d t).1.messages ≤ sumSeq bs.messages + 1 := by
  by_cases hd : serializable d = true
  · rw [append_success_parts bs topic d t hd]
    show sumSeq (bucketSet bs.messages topic _) ≤ _
    apply sumSeq_bucketSet_succ_le
    rw [← topicBucket_seq_eq]
    exact Nat.mod_le _ _
  · have hd' : serializable d = false := by revert hd; cases serializable d <;> simp
    rw [append_fail bs topic d t hd']
    exact Nat.le_succ _

theorem bucketSet_mem {ms : List (String × TopicBucket)} {t : String} {b' : TopicBucket} :
    ∀ q ∈ bucketSet ms t b', q = (t, b') ∨ q ∈ ms := by
  induction ms with
  | nil => intro q hq; simp [bucketSet] at hq; left; rw [hq]
  | cons p rest ih =>
    obtain ⟨pt, pb⟩ := p
    intro q hq
    rw [bucketSet] at hq
    by_cases hp : pt = t
    · simp only [hp, if_true] at hq
      rcases List.mem_cons.mp hq with hq | hq
      · left; exact hq
      · right; exact List.mem_cons_of_mem _ hq
    · simp only [hp, if_false] at hq
      rcases List.mem_cons.mp hq with hq | hq
      · right; rw [hq]; exact List.mem_cons_self _ _
      · rcases ih q hq with hq | hq
        · left; exact hq
        · right; exact List.mem_cons_of_mem _ hq

theorem storeWF_append (bs : Store) (topic : String) (d : Data) (t : Int)
    (hwf : storeWF bs = true) (hroom : (topicBucket bs topic).seq + 1 < U64) :
    storeWF (append bs topic d t).1 = true := by
  by_cases hd : serializable d = true
  · obtain ⟨hseq, hents, hsort⟩ := bucketWF_elim (storeWF_bucket hwf topic)
    have hs1 : ((topicBucket bs topic).seq + 1) % U64 = (topicBucket bs topic).seq + 1 :=
      Nat.mod_eq_of_lt hroom
    have hkeys : ∀ e ∈ (topicBucket bs topic).entries,
        keyLt e.1 (keyFromIndex ((topicBucket bs topic).seq + 1)) = true := by
      intro e he
      obtain ⟨m, henc, hk, h1, h2⟩ := entryWF_elim (hents e he)
      rw [hk, keyLt_keyFromIndex _ _ (by omega) hroom]
      exact decide_eq_true (by omega)
    rw [append_success_parts bs topic d t hd]
    rw [storeWF, List.all_eq_true]
    intro q hq
    show bucketWF q.2 = true
    rcases bucketSet_mem q hq with hq2 | hq2
    · rw [hq2]
      show bucketWF ⟨((topicBucket bs topic).seq + 1) % U64,
        putEntry (keyFromIndex (((topicBucket bs topic).seq + 1) % U64))
          (.enc ⟨((topicBucket bs topic).seq + 1) % U64, t, d⟩)
          (topicBucket bs topic).entries⟩ = true
      rw [hs1, putEntry_append _ _ _ hkeys]
      rw [bucketWF, Bool.and_eq_true, Bool.and_eq_true]
      refine ⟨⟨by simpa using hroom, ?_⟩, ?_⟩
      · rw [List.all_eq_true]
        intro e he
        rcases List.mem_append.mp he with he | he
        · exact entryWF_mono (Nat.le_succ _) (hents e he)
        · simp only [List.mem_singleton] at he
          rw [he]
          show entryWF _ (keyFromIndex ((topicBucket bs topic).seq + 1),
            .enc ⟨(topicBucket bs topic).seq + 1, t, d⟩) = true
          show (keyFromIndex ((topicBucket bs topic).seq + 1) ==
              keyFromIndex ((topicBucket bs topic).seq + 1)
            && decide (1 ≤ (topicBucket bs topic).seq + 1)
            && decide ((topicBucket bs topic).seq + 1 ≤ (topicBucket bs topic).seq + 1)) = true
          simp
      · rw [sortedEntries_pairwise, List.pairwise_append]
        refine ⟨(sortedEntries_pairwise _).mp hsort, List.pairwise_singleton _ _, ?_⟩
        intro e he e2 he2
        simp only [List.mem_singleton] at he2
        rw [he2]
        exact hkeys e he
    · rw [storeWF, List.all_eq_true] at hwf
      exact hwf q hq2
  · have hd' : serializable d = false := by revert hd; cases serializable d <;> simp
    rw [append_fail bs topic d t hd']
    exact hwf

theorem append_genID (bs : Store) (topic : String) (d : Data) (t : Int) :
    (append bs topic d t).1.generationID = bs.generationID := by
  by_cases hd : serializable d = true
  · rw [append_success_parts bs topic d t hd]
  · have hd' : serializable d = false := by revert hd; cases serializable d <;> simp
    rw [append_fail bs topic d t hd']

theorem gc_genID (bs : Store) (c : Int) :
    (gc bs c).1.generationID = bs.generationID := by
  match hx : gcTopics c 0 bs.messages with
  | (ms, k, none) => simp [gc, hx]
  | (ms, k, some e) => simp [gc, hx]

theorem decodeEntries_append (es es' : List (List Nat × Bytes)) :
    decodeEntries (es ++ es') = decodeEntries es ++ decodeEntries es' := by
  simp [decodeEntries, List.filterMap_append]

theorem append_storedMessages_self (bs : Store) (topic : String) (d : Data) (t : Int)
    (hwf : storeWF bs = true) (hd : serializable d = true)
    (hroom : (topicBucket bs topic).seq + 1 < U64) :
    storedMessages (append bs topic d t).1 topic =
      storedMessages bs topic ++ [⟨(topicBucket bs topic).seq + 1, t, d⟩] := by
  obtain ⟨hseq, hents, hsort⟩ := bucketWF_elim (storeWF_bucket hwf topic)
  have hs1 : ((topicBucket bs topic).seq + 1) % U64 = (topicBucket bs topic).seq + 1 :=
    Nat.mod_eq_of_lt hroom
  have hkeys : ∀ e ∈ (topicBucket bs topic).entries,
      keyLt e.1 (keyFromIndex ((topicBucket bs topic).seq + 1)) = true := by
    intro e he
    obtain ⟨m, henc, hk, h1, h2⟩ := entryWF_elim (hents e he)
    rw [hk, keyLt_keyFromIndex _ _ (by omega) hroom]
    exact decide_eq_true (by omega)
  rw [append_success_parts bs topic d t hd]
  show decodeEntries (topicBucket ⟨bs.generationID, bucketSet bs.messages topic _⟩ topic).entries = _
  rw [topicBucket]
  show decodeEntries ((bucketGet? (bucketSet bs.messages topic _) topic).getD ⟨0, []⟩).entries = _
  rw [bucketGet?_bucketSet_self]
  show decodeEntries (putEntry (keyFromIndex (((topicBucket bs topic).seq + 1) % U64))
    (.enc ⟨((topicBucket bs topic).seq + 1) % U64, t, d⟩) (topicBucket bs topic).entries) = _
  rw [hs1, putEntry_append _ _ _ hkeys, decodeEntries_append]
  rfl

theorem append_storedMessages_other (bs : Store) (topic T : String) (d : Data) (t : Int)
    (hne : topic ≠ T) :
    storedMessages (append bs topic d t).1 T = storedMessages bs T := by
  by_cases hd : serializable d = true
  · rw [storedMessages, append_bucket_other bs topic T d t hd hne, storedMessages]
  · have hd' : serializable d = false := by revert hd; cases serializable d <;> simp
    rw [append_fail bs topic d t hd']

/-- Concatenated messages a watch session has pushed to its sink. -/
def delivered : List MessagesResponse → List Message
  | [] => []
  | r :: rest => r.messages ++ delivered rest

theorem delivered_append (sink : List MessagesResponse) (r : MessagesResponse) :
    delivered (sink ++ [r]) = delivered sink ++ r.messages := by
  induction sink with
  | nil => simp [delivered]
  | cons x rest ih => simp [delivered, ih]

theorem pairwise_le_getLast (l : List Message) (last : Message)
    (hl : l.getLast? = some last)
    (hp : l.Pairwise (fun a b => a.index < b.index)) :
    ∀ m ∈ l, m.index ≤ last.index := by
  induction l with
  | nil => simp at hl
  | cons a rest ih =>
    intro m hm
    cases rest with
    | nil =>
      simp at hl hm
      rw [hm, ← hl]
    | cons b rest2 =>
      rw [List.getLast?_cons_cons] at hl
      rw [List.pairwise_cons] at hp
      rcases List.mem_cons.mp hm with hm | hm
      · subst hm
        have hb : b ∈ b :: rest2 := List.mem_cons_self _ _
        have hlast : b.index ≤ last.index := ih hl hp.2 b hb
        have hab := hp.1 b hb
        omega
      · exact ih hl hp.2 m hm

theorem gc_stored_subset (bs : Store) (c : Int) (hwf : storeWF bs = true) (T : String) :
    ∀ m ∈ storedMessages (gc bs c).1 T, m ∈ storedMessages bs T := by
  intro m hm
  rw [gc_ok bs c (storeWF_decodes hwf)] at hm
  rw [storedMessages, topicBucket] at hm ⊢
  revert hm
  show m ∈ decodeEntries ((bucketGet? (gcResultMessages bs.messages c) T).getD ⟨0, []⟩).entries → _
  rw [gcResultMessages,
    bucketGet?_map (fun b => ⟨b.seq, b.entries.filter (fun e => !entryOld c e)⟩) bs.messages T]
  match hb : bucketGet? bs.messages T with
  | none => intro hm; simp [decodeEntries] at hm
  | some b =>
    intro hm
    simp only [Option.map_some', Option.getD_some] at hm ⊢
    obtain ⟨e, he, hu⟩ := decodeEntries_mem hm
    exact List.mem_filterMap.mpr ⟨e, List.mem_of_mem_filter he, hu⟩

theorem sumSeq_gc (bs : Store) (c : Int) (hwf : storeWF bs = true) :
    sumSeq (gc bs c).1.messages = sumSeq bs.messages := by
  rw [gc_ok bs c (storeWF_decodes hwf)]
  show sumSeq (gcResultMessages bs.messages c) = _
  rw [gcResultMessages, sumSeq, sumSeq, List.map_map]
  rfl

/-- One event during a watch session's life: a producer append, a gc
cycle, or the session's own timed poll (`handleNewMessages`). -/
inductive WatchOp where
  | wAppend (topic : String) (d : Data) (t : Int)
  | wGc (olderThan : Int)
  | wPoll

/-- A watch session together with the store it polls and the sink it
has written so far. -/
structure WatchSystem where
  store : Store
  watch : ActiveWatch
  sink : List MessagesResponse

/-- One step of the combined system.  A poll error would terminate the
session (no further sink writes); it is modelled as leaving the state
unchanged. -/
def watchStep (s : WatchSystem) : WatchOp → WatchSystem
  | .wAppend topic d t => ⟨(append s.store topic d t).1, s.watch, s.sink⟩
  | .wGc c => ⟨(gc s.store c).1, s.watch, s.sink⟩
  | .wPoll =>
    match handleNewMessages s.store s.watch s.sink with
    | .ok (aw, sink) => ⟨s.store, aw, sink⟩
    | .error _ => s

/-- Run a whole event trace. -/
def runWatch (s : WatchSystem) : List WatchOp → WatchSystem
  | [] => s
  | op :: rest => runWatch (watchStep s op) rest

/-- Number of append events in a trace. -/
def numAppends : List WatchOp → Nat
  | [] => 0
  | .wAppend _ _ _ :: rest => 1 + numAppends rest
  | _ :: rest => numAppends rest

/-- The inductive invariant of a watch session on topic `T` that was
started with generation `g0` and cursor `i0` against a store whose
generation identifier is `G`. -/
structure WatchInv (T g0 : String) (i0 : Nat) (G : String) (s : WatchSystem) : Prop where
  wf : storeWF s.store = true
  gen : s.store.generationID = G
  top : s.watch.topic = T
  idxLt : s.watch.idx < U64
  asc : ((delivered s.sink).map (fun m => m.index)).Pairwise (fun a b => a < b)
  stale : s.watch.genID ≠ G → s.sink = [] ∧ s.watch.idx = i0 ∧ s.watch.genID = g0
  dlt : s.watch.genID = G → ∀ m ∈ delivered s.sink, m.index < s.watch.idx
  bound : s.watch.genID = G →
    s.watch.idx ≤ (topicBucket s.store T).seq + 1 ∨ (g0 = G ∧ s.watch.idx = i0)
  noskip : s.watch.genID = G →
    ∀ m ∈ storedMessages s.store T, (if g0 = G then i0 else 0) ≤ m.index →
      m.index < s.watch.idx → m ∈ delivered s.sink

theorem watchInv_append (T g0 : String) (i0 : Nat) (G : String) (s : WatchSystem)
    (topic : String) (d : Data) (t : Int)
    (hinv : WatchInv T g0 i0 G s)
    (hroom : sumSeq s.store.messages + 1 < U64) :
    WatchInv T g0 i0 G ⟨(append s.store topic d t).1, s.watch, s.sink⟩ := by
  have hseqroom : (topicBucket s.store topic).seq + 1 < U64 := by
    have := topicSeq_le_sumSeq s.store topic
    omega
  have hseqT : (topicBucket s.store T).seq ≤
      (topicBucket (append s.store topic d t).1 T).seq := by
    by_cases hd : serializable d = true
    · by_cases hT : topic = T
      · subst hT
        rw [append_seq_self _ _ _ _ hd, Nat.mod_eq_of_lt hseqroom]
        omega
      · rw [append_bucket_other _ _ _ _ _ hd hT]
    · have hd' : serializable d = false := by revert hd; cases serializable d <;> simp
      rw [append_fail _ _ _ _ hd']
  refine ⟨storeWF_append _ _ _ _ hinv.wf hseqroom,
    by rw [append_genID]; exact hinv.gen,
    hinv.top, hinv.idxLt, hinv.asc, hinv.stale, hinv.dlt, ?_, ?_⟩
  · intro hg
    rcases hinv.bound hg with hb | hb
    · left
      show s.watch.idx ≤ (topicBucket (append s.store topic d t).1 T).seq + 1
      omega
    · right
      exact hb
  · intro hg m hm hlow hup
    by_cases hTd : topic = T ∧ serializable d = true
    · obtain ⟨hT, hd⟩ := hTd
      subst hT
      rw [append_storedMessages_self _ _ _ _ hinv.wf hd hseqroom] at hm
      rcases List.mem_append.mp hm with hm | hm
      · exact hinv.noskip hg m hm hlow hup
      · simp only [List.mem_singleton] at hm
        subst hm
        simp only at hlow hup
        rcases hinv.bound hg with hb | hb
        · omega
        · obtain ⟨hg0, hi0⟩ := hb
          rw [if_pos hg0] at hlow
          omega
    · have hm' : m ∈ storedMessages s.store T := by
        by_cases hd : serializable d = true
        · have hT : topic ≠ T := fun he => hTd ⟨he, hd⟩
          rw [append_storedMessages_other _ _ _ _ _ hT] at hm
          exact hm
        · have hd' : serializable d = false := by revert hd; cases serializable d <;> simp
          rw [append_fail _ _ _ _ hd'] at hm
          exact hm
      exact hinv.noskip hg m hm' hlow hup

theorem watchInv_gc (T g0 : String) (i0 : Nat) (G : String) (s : WatchSystem) (c : Int)
    (hinv : WatchInv T g0 i0 G s) :
    WatchInv T g0 i0 G ⟨(gc s.store c).1, s.watch, s.sink⟩ := by
  refine ⟨?_, by rw [gc_genID]; exact hinv.gen,
    hinv.top, hinv.idxLt, hinv.asc, hinv.stale, hinv.dlt, ?_, ?_⟩
  · rw [gc_ok s.store c (storeWF_decodes hinv.wf)]
    exact storeWF_gc _ _ _ hinv.wf
  · intro hg
    rcases hinv.bound hg with hb | hb
    · left
      show s.watch.idx ≤ (topicBucket (gc s.store c).1 T).seq + 1
      rw [gc_topicSeq]
      exact hb
    · right
      exact hb
  · intro hg m hm hlow hup
    exact hinv.noskip hg m (gc_stored_subset s.store c hinv.wf T m hm) hlow hup

theorem watchInv_poll (T g0 : String) (i0 : Nat) (G : String) (s : WatchSystem)
    (hinv : WatchInv T g0 i0 G s)
    (hroom : sumSeq s.store.messages + 2 ≤ U64) :
    WatchInv T g0 i0 G (watchStep s .wPoll) := by
  have hget := get_spec s.store T s.watch.genID s.watch.idx hinv.wf hinv.idxLt
  rw [hinv.gen] at hget
  have hseqsum := topicSeq_le_sumSeq s.store T
  by_cases hg : s.watch.genID = G
  · -- the session's cursor is valid against the current generation
    rw [if_pos hg] at hget
    set msgs := (storedMessages s.store T).filter
      (fun m => decide (s.watch.idx ≤ m.index)) with hmsgs
    match hlast : msgs.getLast? with
    | none =>
      have hnil : msgs = [] := by simpa using hlast
      have hH : handleNewMessages s.store s.watch s.sink = .ok (s.watch, s.sink) := by
        simp only [handleNewMessages, hinv.top, hget, hnil]
        rfl
      have hstep : watchStep s .wPoll = s := by
        simp only [watchStep, hH]
      rw [hstep]
      exact hinv
    | some last =>
      have hlastmem : last ∈ msgs := List.mem_of_mem_getLast? (by rw [hlast]; rfl)
      have hmax : ∀ m ∈ msgs, m.index ≤ last.index :=
        pairwise_le_getLast msgs last hlast
          ((storedMessages_pairwise s.store T hinv.wf).filter _)
      have hsub : ∀ m ∈ msgs, m ∈ storedMessages s.store T := fun m hm =>
        List.mem_of_mem_filter hm
      have hge2 : ∀ m ∈ msgs, s.watch.idx ≤ m.index := by
        intro m hm
        have := (List.mem_filter.mp hm).2
        simpa using this
      have hlast_seq : last.index ≤ (topicBucket s.store T).seq :=
        (storedMessages_bounds s.store T hinv.wf last (hsub last hlastmem)).2
      have hidx' : last.index + 1 < U64 := by omega
      have hH : handleNewMessages s.store s.watch s.sink =
          .ok (⟨T, G, last.index + 1⟩, s.sink ++ [⟨G, msgs⟩]) := by
        simp only [handleNewMessages, hinv.top, hget, hlast]
      have hstep : watchStep s .wPoll =
          ⟨s.store, ⟨T, G, last.index + 1⟩, s.sink ++ [⟨G, msgs⟩]⟩ := by
        simp only [watchStep, hH]
      rw [hstep]
      have hdel : delivered (s.sink ++ [⟨G, msgs⟩]) = delivered s.sink ++ msgs :=
        delivered_append _ _
      refine ⟨hinv.wf, hinv.gen, rfl, hidx', ?_, ?_, ?_, ?_, ?_⟩
      · show ((delivered (s.sink ++ [⟨G, msgs⟩])).map (fun m => m.index)).Pairwise
          (fun a b => a < b)
        rw [hdel, List.map_append]
        apply List.pairwise_append.mpr
        refine ⟨hinv.asc, ?_, ?_⟩
        · exact List.Pairwise.map _ (fun a b h => h)
            ((storedMessages_pairwise s.store T hinv.wf).filter _)
        · intro a ha b hb
          obtain ⟨m1, hm1, rfl⟩ := List.mem_map.mp ha
          obtain ⟨m2, hm2, rfl⟩ := List.mem_map.mp hb
          have h1 := hinv.dlt hg m1 hm1
          have h2 := hge2 m2 hm2
          omega
      · intro hne
        exact absurd rfl hne
      · show G = G → ∀ m ∈ delivered (s.sink ++ [⟨G, msgs⟩]), m.index < last.index + 1
        intro _ m hm
        rw [hdel] at hm
        rcases List.mem_append.mp hm with hm | hm
        · have h1 := hinv.dlt hg m hm
          have h2 := hge2 last hlastmem
          omega
        · have := hmax m hm
          omega
      · intro _
        left
        show last.index + 1 ≤ (topicBucket s.store T).seq + 1
        omega
      · show G = G → ∀ m ∈ storedMessages s.store T,
          (if g0 = G then i0 else 0) ≤ m.index → m.index < last.index + 1 →
            m ∈ delivered (s.sink ++ [⟨G, msgs⟩])
        intro _ m hm hlow hup
        rw [hdel]
        by_cases hcase : m.index < s.watch.idx
        · exact List.mem_append.mpr (Or.inl (hinv.noskip hg m hm hlow hcase))
        · refine List.mem_append.mpr (Or.inr ?_)
          rw [hmsgs]
          exact List.mem_filter.mpr ⟨hm, decide_eq_true (Nat.le_of_not_lt hcase)⟩
  · -- stale generation: the cursor is ignored, full history delivered
    rw [if_neg hg] at hget
    obtain ⟨hsink, hidx0, hgid0⟩ := hinv.stale hg
    have hg0 : g0 ≠ G := by rw [← hgid0]; exact hg
    match hlast : (storedMessages s.store T).getLast? with
    | none =>
      have hnil : storedMessages s.store T = [] := by simpa using hlast
      have hH : handleNewMessages s.store s.watch s.sink = .ok (s.watch, s.sink) := by
        simp only [handleNewMessages, hinv.top, hget, hnil]
        rfl
      have hstep : watchStep s .wPoll = s := by
        simp only [watchStep, hH]
      rw [hstep]
      exact hinv
    | some last =>
      have hlastmem : last ∈ storedMessages s.store T :=
        List.mem_of_mem_getLast? (by rw [hlast]; rfl)
      have hmax : ∀ m ∈ storedMessages s.store T, m.index ≤ last.index :=
        pairwise_le_getLast _ last hlast (storedMessages_pairwise s.store T hinv.wf)
      have hlast_seq : last.index ≤ (topicBucket s.store T).seq :=
        (storedMessages_bounds s.store T hinv.wf last hlastmem).2
      have hidx' : last.index + 1 < U64 := by omega
      have hH : handleNewMessages s.store s.watch s.sink =
          .ok (⟨T, G, last.index + 1⟩, s.sink ++ [⟨G, storedMessages s.store T⟩]) := by
        simp only [handleNewMessages, hinv.top, hget, hlast]
      have hstep : watchStep s .wPoll =
          ⟨s.store, ⟨T, G, last.index + 1⟩,
            s.sink ++ [⟨G, storedMessages s.store T⟩]⟩ := by
        simp only [watchStep, hH]
      rw [hstep, hsink]
      have hdel : delivered ([] ++ [(⟨G, storedMessages s.store T⟩ : MessagesResponse)]) =
          storedMessages s.store T := by
        simp [delivered]
      refine ⟨hinv.wf, hinv.gen, rfl, hidx', ?_, ?_, ?_, ?_, ?_⟩
      · show ((delivered ([] ++ [(⟨G, storedMessages s.store T⟩ : MessagesResponse)])).map
          (fun m => m.index)).Pairwise (fun a b => a < b)
        rw [hdel]
        exact List.Pairwise.map _ (fun a b h => h)
          (storedMessages_pairwise s.store T hinv.wf)
      · intro hne
        exact absurd rfl hne
      · show G = G → ∀ m ∈ delivered ([] ++ [(⟨G, storedMessages s.store T⟩ :
            MessagesResponse)]), m.index < last.index + 1
        intro _ m hm
        rw [hdel] at hm
        have := hmax m hm
        omega
      · intro _
        left
        show last.index + 1 ≤ (topicBucket s.store T).seq + 1
        omega
      · show G = G → ∀ m ∈ storedMessages s.store T,
          (if g0 = G then i0 else 0) ≤ m.index → m.index < last.index + 1 →
            m ∈ delivered ([] ++ [(⟨G, storedMessages s.store T⟩ : MessagesResponse)])
        intro _ m hm hlow hup
        rw [hdel]
        exact hm

theorem runWatch_inv (T g0 : String) (i0 : Nat) (G : String) (ops : List WatchOp) :
    ∀ s : WatchSystem,
      WatchInv T g0 i0 G s →
      sumSeq s.store.messages + numAppends ops + 2 ≤ U64 →
      WatchInv T g0 i0 G (runWatch s ops) := by
  induction ops with
  | nil => intro s hinv _; exact hinv
  | cons op rest ih =>
    intro s hinv hroom
    match op with
    | .wAppend topic d t =>
      have h1 : numAppends (.wAppend topic d t :: rest) = 1 + numAppends rest := rfl
      rw [h1] at hroom
      have hstep := watchInv_append T g0 i0 G s topic d t hinv (by omega)
      have hsum := sumSeq_append_le s.store topic d t
      show WatchInv T g0 i0 G (runWatch (watchStep s (.wAppend topic d t)) rest)
      exact ih ⟨(append s.store topic d t).1, s.watch, s.sink⟩ hstep (by
        show sumSeq (append s.store topic d t).1.messages + numAppends rest + 2 ≤ U64
        omega)
    | .wGc c =>
      have hsum := sumSeq_gc s.store c hinv.wf
      show WatchInv T g0 i0 G (runWatch (watchStep s (.wGc c)) rest)
      exact ih ⟨(gc s.store c).1, s.watch, s.sink⟩ (watchInv_gc T g0 i0 G s c hinv) (by
        show sumSeq (gc s.store c).1.messages + numAppends rest + 2 ≤ U64
        have h1 : numAppends (WatchOp.wGc c :: rest) = numAppends rest := rfl
        rw [h1] at hroom
        omega)
    | .wPoll =>
      have hstore : (watchStep s .wPoll).store = s.store := by
        cases hh : handleNewMessages s.store s.watch s.sink with
        | ok p =>
          obtain ⟨aw, sink⟩ := p
          simp [watchStep, hh]
        | error e => simp [watchStep, hh]
      have h1 : numAppends (WatchOp.wPoll :: rest) = numAppends rest := rfl
      rw [h1] at hroom
      show WatchInv T g0 i0 G (runWatch (watchStep s .wPoll) rest)
      exact ih (watchStep s .wPoll) (watchInv_poll T g0 i0 G s hinv (by omega)) (by
        rw [hstore]
        omega)

/-- C4 as amended: a chunked watch session
(`activeWatch.handleNewMessages`, which adopts the returned generation
identifier) on topic `T`, whatever generation identifier and cursor it
was started with, never delivers a stored record twice (the delivered
indices are strictly increasing over the whole session) and never
skips one: as long as it has not yet adopted the store's generation
nothing has been delivered (and the next non-empty poll returns the
full history), and once adopted, every stored record at or above the
session's effective starting cursor and below the session's resume
point has been delivered to the sink.  The websocket session, which
never adopts the generation, violates this — see the counterexample. -/
theorem claim_C4_watch_no_dup_no_skip (bs : Store) (T g0 : String) (i0 : Nat)
    (ops : List WatchOp)
    (hwf : storeWF bs = true) (hidx : i0 < U64)
    (hroom : sumSeq bs.messages + numAppends ops + 2 ≤ U64) :
    (((delivered (runWatch ⟨bs, ⟨T, g0, i0⟩, []⟩ ops).sink).map (fun m => m.index)).Pairwise
        (fun a b => a < b)) ∧
    ((runWatch ⟨bs, ⟨T, g0, i0⟩, []⟩ ops).watch.genID ≠ bs.generationID →
      delivered (runWatch ⟨bs, ⟨T, g0, i0⟩, []⟩ ops).sink = []) ∧
    ((runWatch ⟨bs, ⟨T, g0, i0⟩, []⟩ ops).watch.genID = bs.generationID →
      ∀ m ∈ storedMessages (runWatch ⟨bs, ⟨T, g0, i0⟩, []⟩ ops).store T,
        (if g0 = bs.generationID then i0 else 0) ≤ m.index →
        m.index < (runWatch ⟨bs, ⟨T, g0, i0⟩, []⟩ ops).watch.idx →
        m ∈ delivered (runWatch ⟨bs, ⟨T, g0, i0⟩, []⟩ ops).sink) := by
  have hinit : WatchInv T g0 i0 bs.generationID ⟨bs, ⟨T, g0, i0⟩, []⟩ := by
    refine ⟨hwf, rfl, rfl, hidx, List.Pairwise.nil, ?_, ?_, ?_, ?_⟩
    · intro h
      exact ⟨rfl, rfl, rfl⟩
    · intro hg m hm
      exact absurd hm (List.not_mem_nil m)
    · intro hg
      exact Or.inr ⟨hg, rfl⟩
    · intro hg m hm hlow hup
      have hup2 : m.index < i0 := hup
      rw [if_pos hg] at hlow
      exact absurd hup2 (by omega)
  have hfin := runWatch_inv T g0 i0 bs.generationID ops ⟨bs, ⟨T, g0, i0⟩, []⟩ hinit hroom
  refine ⟨hfin.asc, ?_, hfin.noskip⟩
  intro hne
  rw [(hfin.stale hne).1]
  rfl

/-- Witness for C4: a chunked session started with a stale generation
and two interleaved appends and polls delivers indices in strictly
ascending order. -/
theorem claim_C4_witness :
    storeWF (newBoltStore emptyDB "g").1 = true ∧ (0 : Nat) < U64 ∧
      sumSeq (newBoltStore emptyDB "g").1.messages +
          numAppends [WatchOp.wAppend "t" (.json "a") 1, .wPoll,
            .wAppend "t" (.json "b") 2, .wPoll] + 2 ≤ U64 ∧
      ((delivered (runWatch ⟨(newBoltStore emptyDB "g").1, ⟨"t", "stale", 0⟩, []⟩
          [WatchOp.wAppend "t" (.json "a") 1, .wPoll,
            .wAppend "t" (.json "b") 2, .wPoll]).sink).map (fun m => m.index)).Pairwise
        (fun a b => a < b) :=
  ⟨by decide, by decide, by decide,
    (claim_C4_watch_no_dup_no_skip (newBoltStore emptyDB "g").1 "t" "stale" 0
      [WatchOp.wAppend "t" (.json "a") 1, .wPoll, .wAppend "t" (.json "b") 2, .wPoll]
      (by decide) (by decide) (by decide)).1⟩

/-- A concrete store for witnesses: a fresh location opened with
generation `"g"` and three appends to topic `"t"`. -/
def sampleStore : Store :=
  (append ((append ((append (newBoltStore emptyDB "g").1
    "t" (.json "a") 1).1) "t" (.json "b") 2).1) "t" (.json "c") 3).1

/-- The response a matching-generation full read of `sampleStore`'s
topic `"t"` produces. -/
def sampleResp : MessagesResponse := ⟨"g", storedMessages sampleStore "t"⟩

/-- A store holding one deletable record and one undecodable value,
for exercising the gc error path. -/
def corruptStore : Store :=
  ⟨"g", [("t", ⟨2, [(keyFromIndex 1, .enc ⟨1, 0, .json "a"⟩),
                    (keyFromIndex 2, .junk 7)]⟩)]⟩

/-- Counterexample to C4 as stated: the websocket session
(`watchManager.manageWatch`, cited by the claim) started with the
stale generation `"stale"` against a well-formed store polls twice
with no intervening writes; because it never adopts the returned
generation, each non-empty poll returns the full history, and the
stored record with index 1 is delivered to the sink twice. -/
theorem claim_C4_counterexample :
    storeWF sampleStore = true ∧
    wsHandleNewMessages sampleStore ⟨"t", "stale", 0⟩ [] =
      .ok (⟨"t", "stale", 4⟩, [sampleResp]) ∧
    wsHandleNewMessages sampleStore ⟨"t", "stale", 4⟩ [sampleResp] =
      .ok (⟨"t", "stale", 4⟩, [sampleResp, sampleResp]) ∧
    (delivered [sampleResp, sampleResp]).count (⟨1, 1, .json "a"⟩ : Message) = 2 := by
  refine ⟨?_, ?_, ?_, ?_⟩
  · decide
  · rfl
  · rfl
  · decide

/-- C2: `get(topic, generationID, fromIndex)` returns exactly the
stored records of the topic with index `≥ fromIndex` when
`generationID` matches the store's identifier, the topic's full stored
history when it differs (`fromIndex` ignored), and in both cases the
records come in strictly ascending index order. -/
theorem claim_C2_get_cursor_protocol (bs : Store) (topic gid : String) (fi : Nat)
    (hwf : storeWF bs = true) (hfi : fi < U64) :
    (gid = bs.generationID →
      get bs topic gid fi =
        .ok ⟨bs.generationID, (storedMessages bs topic).filter (fun m => decide (fi ≤ m.index))⟩) ∧
    (gid ≠ bs.generationID →
      get bs topic gid fi = .ok ⟨bs.generationID, storedMessages bs topic⟩) ∧
    (∀ resp, get bs topic gid fi = .ok resp →
      resp.messages.Pairwise (fun m1 m2 => m1.index < m2.index)) := by
  refine ⟨fun hg => ?_, fun hg => ?_, fun resp hresp => ?_⟩
  · rw [get_spec bs topic gid fi hwf hfi]
    simp [hg]
  · rw [get_spec bs topic gid fi hwf hfi]
    simp [hg]
  · rw [get_spec bs topic gid fi hwf hfi] at hresp
    simp only [Except.ok.injEq] at hresp
    subst hresp
    by_cases hg : gid = bs.generationID
    · simp only [hg, if_true]
      exact (storedMessages_pairwise bs topic hwf).filter _
    · simp only [hg, if_false]
      exact storedMessages_pairwise bs topic hwf

/-- Witness for C2 on a concrete store: a matching-generation read
from index 2. -/
theorem claim_C2_witness :
    storeWF sampleStore = true ∧ 2 < U64 ∧
      get sampleStore "t" "g" 2 =
        .ok ⟨sampleStore.generationID,
          (storedMessages sampleStore "t").filter (fun m => decide (2 ≤ m.index))⟩ :=
  ⟨by decide, by decide,
    (claim_C2_get_cursor_protocol sampleStore "t" "g" 2 (by decide) (by decide)).1 (by decide)⟩

/-- C3 as amended: after a poll whose result is non-empty, a watch
session writes the response to its sink as one unit and sets its
cursor to one past the last delivered index, and an empty poll changes
nothing; the chunked session (`activeWatch.handleNewMessages`)
additionally adopts the generation identifier returned in the result,
while the websocket session (`watchManager.manageWatch`) leaves the
generation identifier it was started with unchanged. -/
theorem claim_C3_watch_advances_cursor (bs : Store) (aw : ActiveWatch)
    (sink : List MessagesResponse) (resp : MessagesResponse)
    (hget : get bs aw.topic aw.genID aw.idx = .ok resp) :
    (resp.messages = [] → handleNewMessages bs aw sink = .ok (aw, sink)) ∧
    (∀ last, resp.messages.getLast? = some last →
      handleNewMessages bs aw sink =
        .ok (⟨aw.topic, resp.generationID, last.index + 1⟩, sink ++ [resp])) ∧
    (resp.messages = [] → wsHandleNewMessages bs aw sink = .ok (aw, sink)) ∧
    (∀ last, resp.messages.getLast? = some last →
      wsHandleNewMessages bs aw sink =
        .ok (⟨aw.topic, aw.genID, last.index + 1⟩, sink ++ [resp])) := by
  refine ⟨?_, ?_, ?_, ?_⟩
  · intro h
    simp [handleNewMessages, hget, h]
  · intro last hl
    simp [handleNewMessages, hget, hl]
  · intro h
    simp [wsHandleNewMessages, hget, h]
  · intro last hl
    simp [wsHandleNewMessages, hget, hl]

/-- Counterexample to C3 as stated: the websocket session — cited by
the claim — polls a store whose generation is `"g"` with the stale
generation `"stale"`, the poll is non-empty, yet the session's
generation identifier afterwards is still `"stale"`, not the `"g"`
returned in the result. -/
theorem claim_C3_counterexample :
    wsHandleNewMessages sampleStore ⟨"t", "stale", 0⟩ [] =
      .ok (⟨"t", "stale", 4⟩, [sampleResp]) ∧
    sampleResp.generationID = "g" ∧ ("stale" : String) ≠ "g" :=
  ⟨rfl, rfl, by decide⟩

/-- Witness for C3: a stale-generation poll of the sample store
delivers the full history; the chunked session adopts generation
`"g"` while the websocket session keeps `"stale"`; both resume at 4. -/
theorem claim_C3_witness :
    get sampleStore "t" "stale" 99 = .ok sampleResp ∧
      handleNewMessages sampleStore ⟨"t", "stale", 99⟩ [] =
        .ok (⟨"t", sampleResp.generationID, Message.index ⟨3, 3, .json "c"⟩ + 1⟩,
          [] ++ [sampleResp]) ∧
      wsHandleNewMessages sampleStore ⟨"t", "stale", 99⟩ [] =
        .ok (⟨"t", "stale", Message.index ⟨3, 3, .json "c"⟩ + 1⟩,
          [] ++ [sampleResp]) :=
  ⟨rfl,
    (claim_C3_watch_advances_cursor sampleStore ⟨"t", "stale", 99⟩ [] sampleResp
      rfl).2.1 ⟨3, 3, .json "c"⟩ (by decide),
    (claim_C3_watch_advances_cursor sampleStore ⟨"t", "stale", 99⟩ [] sampleResp
      rfl).2.2.2 ⟨3, 3, .json "c"⟩ (by decide)⟩

theorem list_map_congr {α β : Type} (f g : α → β) (l : List α)
    (h : ∀ a ∈ l, f a = g a) : l.map f = l.map g := by
  induction l with
  | nil => rfl
  | cons a rest ih =>
    simp only [List.map_cons, h a (by simp)]
    rw [ih (fun a2 h2 => h a2 (by simp [h2]))]

theorem filter_not_self_length {α : Type} (p : α → Bool) (l : List α) :
    ((l.filter (fun a => !p a)).filter p).length = 0 := by
  induction l with
  | nil => rfl
  | cons a rest ih =>
    by_cases hp : p a = true
    · rw [List.filter_cons_of_neg (by simp [hp])]
      exact ih
    · have hp' : p a = false := by revert hp; cases p a <;> simp
      rw [List.filter_cons_of_pos (by simp [hp']), List.filter_cons_of_neg (by simp [hp'])]
      exact ih

/-- C5: on a well-formed store a gc cycle succeeds, every topic keeps
exactly its records with timestamp at or after the cutoff (those
strictly before are deleted, none at or after are), the returned count
is the number of records deleted, and an immediate second cycle with
the same cutoff deletes 0. -/
theorem claim_C5_gc_deletes_old (bs : Store) (c : Int) (hwf : storeWF bs = true) :
    (gc bs c).2.2 = none ∧
    (∀ T, storedMessages (gc bs c).1 T =
        (storedMessages bs T).filter (fun m => decide (c ≤ m.timestamp))) ∧
    (gc bs c).2.1 = countOldStore bs c ∧
    (gc (gc bs c).1 c).2.1 = 0 := by
  have hdec := storeWF_decodes hwf
  have hgc := gc_ok bs c hdec
  refine ⟨by rw [hgc], fun T => ?_, ?_, ?_⟩
  · rw [hgc, storedMessages, storedMessages, topicBucket, topicBucket]
    show decodeEntries ((bucketGet? (gcResultMessages bs.messages c) T).getD ⟨0, []⟩).entries = _
    rw [gcResultMessages,
      bucketGet?_map (fun b => ⟨b.seq, b.entries.filter (fun e => !entryOld c e)⟩) bs.messages T]
    match hb : bucketGet? bs.messages T with
    | none => rfl
    | some b =>
      simp only [Option.map_some', Option.getD_some]
      exact decodeEntries_filter_old c b.entries (hdec (T, b) (bucketGet?_mem hb))
  · rw [hgc, countOldStore]
    show (bs.messages.map (fun p => (p.2.entries.filter (entryOld c)).length)).sum = _
    congr 1
    exact list_map_congr _ _ bs.messages
      (fun p hp => filter_old_length c p.2.entries (hdec p hp))
  · rw [hgc]
    have hwf2 : storeWF (⟨bs.generationID, gcResultMessages bs.messages c⟩ : Store) = true :=
      storeWF_gc bs.generationID bs.messages c hwf
    rw [gc_ok _ c (storeWF_decodes hwf2)]
    show ((gcResultMessages bs.messages c).map
      (fun p => (p.2.entries.filter (entryOld c)).length)).sum = 0
    apply List.sum_eq_zero
    intro x hx
    rw [List.mem_map] at hx
    obtain ⟨p, hp, hfx⟩ := hx
    rw [gcResultMessages, List.mem_map] at hp
    obtain ⟨q, hq, hfq⟩ := hp
    rw [← hfx, ← hfq]
    exact filter_not_self_length (entryOld c) q.2.entries

/-- Witness for C5: gc at cutoff 3 on the sample store deletes the two
older records, reports 2, and a second cycle reports 0. -/
theorem claim_C5_witness :
    storeWF sampleStore = true ∧
      (gc sampleStore 3).2.1 = countOldStore sampleStore 3 ∧
      (gc (gc sampleStore 3).1 3).2.1 = 0 ∧ countOldStore sampleStore 3 = 2 :=
  ⟨by decide, (claim_C5_gc_deletes_old sampleStore 3 (by decide)).2.2.1,
    (claim_C5_gc_deletes_old sampleStore 3 (by decide)).2.2.2, by decide⟩

/-- C6: `append` is atomic — when it returns an error the store visible
afterwards is exactly the store before the call, so no partial record
is ever visible to `get`. -/
theorem claim_C6_append_atomic (bs : Store) (topic : String) (d : Data) (now : Int)
    (h : (append bs topic d now).2 ≠ none) :
    (append bs topic d now).1 = bs ∧
      ∀ t g i, get (append bs topic d now).1 t g i = get bs t g i := by
  cases hx : appendTx bs topic d now with
  | ok bs' =>
    have he : append bs topic d now = (bs', none) := by simp [append, dbUpdate, hx]
    rw [he] at h
    simp at h
  | error e =>
    have he : append bs topic d now = (bs, some e) := by simp [append, dbUpdate, hx]
    rw [he]
    exact ⟨rfl, fun t g i => rfl⟩

/-- Witness for C6: appending an unserializable payload fails and
leaves the sample store untouched. -/
theorem claim_C6_witness :
    (append sampleStore "t" (.unserializable 0) 9).2 ≠ none ∧
      (append sampleStore "t" (.unserializable 0) 9).1 = sampleStore :=
  ⟨by decide, (claim_C6_append_atomic sampleStore "t" (.unserializable 0) 9 (by decide)).1⟩

/-- C8: reopening a storage location yields the generation identifier
persisted by the first open; a fresh location adopts the freshly
generated identifier, so two independently created locations opened
with different fresh identifiers differ. -/
theorem claim_C8_generation_persistence (db : DB) (u1 u2 u : String) :
    (newBoltStore (newBoltStore db u1).2 u2).1.generationID =
        (newBoltStore db u1).1.generationID ∧
      (newBoltStore emptyDB u).1.generationID = u ∧
      (u1 ≠ u2 →
        (newBoltStore emptyDB u1).1.generationID ≠ (newBoltStore emptyDB u2).1.generationID) := by
  refine ⟨?_, rfl, fun hne => ?_⟩
  · cases hm : db.metaGenerationID <;> simp [newBoltStore, hm]
  · simpa [newBoltStore, emptyDB] using hne

/-- Witness for C8 at concrete identifiers. -/
theorem claim_C8_witness :
    ("a" : String) ≠ "b" ∧
      (newBoltStore emptyDB "a").1.generationID ≠ (newBoltStore emptyDB "b").1.generationID :=
  ⟨by decide, (claim_C8_generation_persistence emptyDB "a" "b" "x").2.2 (by decide)⟩

/-- C9: `get` on a topic that was never appended to (its sub-bucket
does not exist) succeeds with an empty message list carrying the
store's current generation identifier. -/
theorem claim_C9_get_missing_topic (bs : Store) (topic gid : String) (fi : Nat)
    (h : bucketGet? bs.messages topic = none) :
    get bs topic gid fi = .ok ⟨bs.generationID, []⟩ := by
  simp [get, h]

/-- Witness for C9: an unused topic name on the sample store. -/
theorem claim_C9_witness :
    bucketGet? sampleStore.messages "nope" = none ∧
      get sampleStore "nope" "x" 5 = .ok ⟨sampleStore.generationID, []⟩ :=
  ⟨by decide, claim_C9_get_missing_topic sampleStore "nope" "x" 5 (by decide)⟩

/-- C10: when `gc` returns an error the whole cycle's transaction rolls
back — the store is unchanged — even though the count returned
alongside the error reflects the deletions attempted before the
failure. -/
theorem claim_C10_gc_error_rollback (bs : Store) (c : Int)
    (h : (gc bs c).2.2 ≠ none) : (gc bs c).1 = bs := by
  match hx : gcTopics c 0 bs.messages with
  | (ms, k, none) => simp [gc, hx] at h
  | (ms, k, some e) => simp [gc, hx]

/-- Witness for C10: a store with one old record followed by an
undecodable value — gc fails, reports one attempted deletion, and the
store is unchanged. -/
theorem claim_C10_witness :
    (gc corruptStore 5).2.2 ≠ none ∧ (gc corruptStore 5).1 = corruptStore ∧
      (gc corruptStore 5).2.1 = 1 :=
  ⟨by decide, claim_C10_gc_error_rollback corruptStore 5 (by decide), by decide⟩

end MessageBuffer
